import Mathlib

/-
Verification of the Solidity Declaration & Type Resolution Engine
(comment stripper, balanced-delimiter scanner, mapping decomposer,
parameter/return clause parser, custom type resolver, declaration
extractor) against its natural-language specification.

The engine is embedded shallowly: every definition below is a direct
translation of the corresponding TypeScript function, working on
`List Char` instead of JavaScript strings.  JavaScript regular
expressions are translated into explicit scanners that implement the
leftmost-match / greedy-with-backtracking behaviour of the concrete
patterns used by the source.  Unbounded recursions in the source
(struct resolution, final-mapping-value extraction) are modelled with
explicit fuel; `none` means the recursion did not complete within the
given fuel, so a result that is `none` for every fuel is a
non-terminating run of the original code.
-/

namespace EvmTools

/-- Converts a Lean string literal to the `List Char` representation
used throughout this development. -/
def str (s : String) : List Char := s.toList

/-- Whitespace test matching the characters the JavaScript regexp
class `\s` and `String.prototype.trim` treat as whitespace (the ASCII
subset, which is all the source texts here use). -/
def isWsChar (c : Char) : Bool :=
  c = ' ' || c = '\t' || c = '\n' || c = '\r' || c = '\x0b' || c = '\x0c'

/-- Word character, the JavaScript regexp class `\w` = [A-Za-z0-9_]. -/
def isWordChar (c : Char) : Bool :=
  c.isAlphanum || c = '_'

/-- First character of an identifier: [a-zA-Z_]. -/
def isIdentStart (c : Char) : Bool :=
  c.isAlpha || c = '_'

/-- Character class of the first capture group of the state-variable
and struct-member patterns: [a-zA-Z0-9_.\[\]] (with or without dot
depending on the pattern; this is the variant with the dot). -/
def isTypeTokenChar (c : Char) : Bool :=
  c.isAlphanum || c = '_' || c = '.' || c = '[' || c = ']'

/-- Variant without the dot, used by the state-variable pattern
`[a-zA-Z0-9_\[\]]`. -/
def isSimpleTypeChar (c : Char) : Bool :=
  c.isAlphanum || c = '_' || c = '[' || c = ']'

/-- ASCII lower-casing, the fragment of JavaScript `toLowerCase`
exercised by the case-insensitive regexps of the source. -/
def toLowerCh (c : Char) : Char :=
  if 'A' ≤ c ∧ c ≤ 'Z' then Char.ofNat (c.toNat + 32) else c

/-- ASCII upper-casing, the fragment of JavaScript `toUpperCase` used
by `isCustomType`'s first-character test. -/
def toUpperCh (c : Char) : Char :=
  if 'a' ≤ c ∧ c ≤ 'z' then Char.ofNat (c.toNat - 32) else c

/-- Prefix test on character lists (plain, case-sensitive). -/
def isPre : List Char → List Char → Bool
  | [], _ => true
  | _ :: _, [] => false
  | p :: ps, c :: cs => p = c && isPre ps cs

/-- Case-insensitive prefix match that also returns the consumed
characters (in their original case) and the remainder; models matching
a literal keyword under the regexp `i` flag. -/
def matchCI : List Char → List Char → Option (List Char × List Char)
  | [], s => some ([], s)
  | _ :: _, [] => none
  | p :: ps, c :: cs =>
    if toLowerCh c = toLowerCh p then
      (matchCI ps cs).map (fun t => (c :: t.1, t.2))
    else none

/-- Substring containment test (used for `String.prototype.includes`). -/
def containsSub (needle : List Char) : List Char → Bool
  | [] => isPre needle []
  | c :: cs => isPre needle (c :: cs) || containsSub needle cs

/-- Drops trailing characters satisfying `p`. -/
def dropTrailWhile (p : Char → Bool) (cs : List Char) : List Char :=
  (cs.reverse.dropWhile p).reverse

/-- JavaScript `String.prototype.trim` on the ASCII whitespace set. -/
def jsTrim (cs : List Char) : List Char :=
  dropTrailWhile isWsChar (cs.dropWhile isWsChar)

/-- Splits a list on a separator character, JavaScript
`String.prototype.split(sep)` semantics (keeps empty segments). -/
def splitOnCh (sep : Char) : List Char → List (List Char)
  | [] => [[]]
  | c :: cs =>
    let r := splitOnCh sep cs
    if c = sep then [] :: r
    else
      match r with
      | [] => [[c]]
      | seg :: rest => (c :: seg) :: rest

/-- Decimal rendering of a naturals, for the synthesized `key1`,
`key2`, … input names. -/
def natChars (n : Nat) : List Char := (toString n).toList

/-- Lookup in an insertion-ordered association list (JavaScript `Map.get`). -/
def lookupA {α : Type} (m : List (List Char × α)) (k : List Char) : Option α :=
  match m with
  | [] => none
  | (k', v) :: rest => if k' = k then some v else lookupA rest k

/-- Insertion into an insertion-ordered association list (JavaScript
`Map.set`: overwrites in place, appends new keys at the end). -/
def setA {α : Type} (m : List (List Char × α)) (k : List Char) (v : α) :
    List (List Char × α) :=
  match m with
  | [] => [(k, v)]
  | (k', v') :: rest => if k' = k then (k, v) :: rest else (k', v') :: setA rest k v

/-! ## Comment stripper

Translation of `removeComments` (commentRemover.ts).  The index-based
while-loops of the source become recursions on the remaining input:
`copyStr` is the inner string-literal loop (quote already emitted by
the caller), `dropLine` advances to the next newline, and `dropBlock`
is the inner block-comment loop, whose bound `i < source.length - 1`
means that when no closing `*/` is found the loop stops one character
before the end of the input and the outer loop resumes on that last
character (it is not erased). -/

/-- Inner loop of `removeComments` for a string literal opened with
quote `q`: copies characters (escape pairs verbatim) until the closing
quote (inclusive) or the end of input; returns the copied characters
and the remaining input. -/
def copyStr (q : Char) : List Char → List Char × List Char
  | [] => ([], [])
  | c :: rest =>
    if c = '\\' then
      match rest with
      | [] => ([c], [])
      | d :: rest2 =>
        let p := copyStr q rest2
        (c :: d :: p.1, p.2)
    else if c = q then ([c], rest)
    else
      let p := copyStr q rest
      (c :: p.1, p.2)

/-- Advances to the next newline; returns the suffix starting at that
newline, or `[]` if there is none (the `while source[i] != '\n'` loop
of the single-line-comment case). -/
def dropLine : List Char → List Char
  | [] => []
  | c :: rest => if c = '\n' then c :: rest else dropLine rest

/-- Inner loop of the block-comment case: scans for `*/` while
collecting newlines; mirrors the source's `while (i < length - 1)`
bound, so on an unterminated comment the final character of the input
is returned as the remainder for the outer loop to process. -/
def dropBlock : List Char → List Char × List Char
  | [] => ([], [])
  | [c] => ([], [c])
  | c :: d :: rest =>
    if c = '*' ∧ d = '/' then ([], rest)
    else
      let p := dropBlock (d :: rest)
      (if c = '\n' then c :: p.1 else p.1, p.2)

theorem copyStr_snd_length (q : Char) : ∀ cs : List Char,
    (copyStr q cs).2.length ≤ cs.length
  | [] => by simp [copyStr]
  | c :: rest => by
    by_cases h : c = '\\'
    · cases rest with
      | nil => simp [copyStr, h]
      | cons d rest2 =>
        have ih := copyStr_snd_length q rest2
        rw [copyStr.eq_def]
        simp [h]
        omega
    · by_cases h2 : c = q
      · subst h2
        rw [copyStr.eq_def]
        simp [h]
      · have ih := copyStr_snd_length q rest
        rw [copyStr.eq_def]
        simp [h, h2]
        omega

theorem dropLine_length (cs : List Char) : (dropLine cs).length ≤ cs.length := by
  induction cs with
  | nil => simp [dropLine]
  | cons c rest ih =>
    by_cases h : c = '\n'
    · simp [dropLine, h]
    · simp only [dropLine, if_neg h]
      exact Nat.le_trans ih (by simp)

theorem dropBlock_snd_length : ∀ cs : List Char,
    (dropBlock cs).2.length ≤ cs.length
  | [] => by simp [dropBlock]
  | [_] => by simp [dropBlock]
  | c :: d :: rest => by
    by_cases h : c = '*' ∧ d = '/'
    · simp only [dropBlock, if_pos h]; simp; omega
    · have ih := dropBlock_snd_length (d :: rest)
      simp [dropBlock, h] at ih ⊢
      omega

/-- Translation of `removeComments` (commentRemover.ts): erases `//`
comments to end of line (keeping the newline) and `/* */` comments
(keeping contained newlines), passing single- and double-quoted string
literals through verbatim. -/
def removeComments (cs : List Char) : List Char :=
  match cs with
  | [] => []
  | c :: rest =>
    if c = '\'' then
      let p := copyStr '\'' rest
      '\'' :: (p.1 ++ removeComments p.2)
    else if c = '"' then
      let p := copyStr '"' rest
      '"' :: (p.1 ++ removeComments p.2)
    else if c = '/' ∧ rest.head? = some '/' then
      if _h : dropLine rest.tail = [] then []
      else '\n' :: removeComments (dropLine rest.tail).tail
    else if c = '/' ∧ rest.head? = some '*' then
      let p := dropBlock rest.tail
      p.1 ++ removeComments p.2
    else c :: removeComments rest
termination_by cs.length
decreasing_by
  · simp_wf
    have := copyStr_snd_length '\'' cs
    omega
  · simp_wf
    have := copyStr_snd_length '"' cs
    omega
  · simp_wf
    have h1 := dropLine_length cs.tail
    have h2 : (dropLine cs.tail).length ≠ 0 := by
      simpa [List.length_eq_zero] using _h
    have h3 : cs.tail.length ≤ cs.length := by
      cases cs <;> simp
    omega
  · simp_wf
    have h1 := dropBlock_snd_length cs.tail
    have h3 : cs.tail.length ≤ cs.length := by
      cases cs <;> simp
    omega
  · simp

/-! ### Unfolding lemmas for `removeComments` -/

theorem rc_nil : removeComments [] = [] := by
  rw [removeComments.eq_def]

theorem rc_quote (q : Char) (hq : q = '\'' ∨ q = '"') (rest : List Char) :
    removeComments (q :: rest) =
      q :: ((copyStr q rest).1 ++ removeComments (copyStr q rest).2) := by
  rcases hq with h | h <;> subst h <;> rw [removeComments.eq_def] <;> simp

theorem rc_line (rest : List Char) :
    removeComments ('/' :: '/' :: rest) =
      if dropLine rest = [] then []
      else '\n' :: removeComments (dropLine rest).tail := by
  rw [removeComments.eq_def]
  by_cases h : dropLine rest = [] <;> simp [h]

theorem rc_block (rest : List Char) :
    removeComments ('/' :: '*' :: rest) =
      (dropBlock rest).1 ++ removeComments (dropBlock rest).2 := by
  rw [removeComments.eq_def]
  simp

theorem rc_other (c : Char) (rest : List Char)
    (h1 : c ≠ '\'') (h2 : c ≠ '"')
    (h3 : ¬(c = '/' ∧ rest.head? = some '/'))
    (h4 : ¬(c = '/' ∧ rest.head? = some '*')) :
    removeComments (c :: rest) = c :: removeComments rest := by
  rw [removeComments.eq_def]
  simp [h1, h2, h3, h4]

/-- Stripping a one-character input never changes it. -/
theorem rc_single (c : Char) : removeComments [c] = [c] := by
  by_cases h1 : c = '\''
  · subst h1; rw [rc_quote _ (Or.inl rfl)]; simp [copyStr, rc_nil]
  · by_cases h2 : c = '"'
    · subst h2; rw [rc_quote _ (Or.inr rfl)]; simp [copyStr, rc_nil]
    · rw [rc_other c [] h1 h2 (by simp) (by simp), rc_nil]

/-! ### Structure of the helper scans -/

/-- The string-literal loop copies exactly the characters it consumes. -/
theorem copyStr_append (q : Char) : ∀ cs : List Char,
    (copyStr q cs).1 ++ (copyStr q cs).2 = cs
  | [] => by simp [copyStr]
  | c :: rest => by
    by_cases h : c = '\\'
    · cases rest with
      | nil => simp [copyStr, h]
      | cons d rest2 =>
        have ih := copyStr_append q rest2
        rw [copyStr.eq_def]
        simpa [h] using ih
    · by_cases h2 : c = q
      · subst h2
        rw [copyStr.eq_def]
        simp [h]
      · have ih := copyStr_append q rest
        rw [copyStr.eq_def]
        simpa [h, h2] using ih

/-- Re-scanning the copied body of a string literal consumes exactly that
body again: either the copy ended at a closing quote and re-scanning it
in front of any continuation splits at the same point, or the literal was
unterminated (nothing of the input is left) and re-scanning the copy alone
reproduces it. -/
theorem copyStr_rescan (q : Char) (hq : q ≠ '\\') : ∀ cs : List Char,
    (∀ X, copyStr q ((copyStr q cs).1 ++ X) = ((copyStr q cs).1, X)) ∨
    ((copyStr q cs).2 = [] ∧ copyStr q (copyStr q cs).1 = ((copyStr q cs).1, []))
  | [] => by
    right
    simp [copyStr]
  | c :: rest => by
    by_cases h : c = '\\'
    · cases rest with
      | nil =>
        right
        subst h
        rw [copyStr.eq_def]
        simp only [if_pos rfl]
        constructor
        · rfl
        · rw [copyStr.eq_def]; simp
      | cons d rest2 =>
        have ih := copyStr_rescan q hq rest2
        rw [copyStr.eq_def]
        simp only [if_pos h]
        rcases ih with ih | ⟨ih1, ih2⟩
        · left
          intro X
          rw [copyStr.eq_def]
          simp only [List.cons_append, if_pos h]
          simp [ih X]
        · right
          refine ⟨by simpa using ih1, ?_⟩
          rw [copyStr.eq_def]
          simp only [List.cons_append, if_pos h]
          simp [ih2]
    · by_cases h2 : c = q
      · subst h2
        left
        intro X
        rw [copyStr.eq_def]
        simp only [if_pos rfl]
        rw [copyStr.eq_def]
        simp [h]
      · have ih := copyStr_rescan q hq rest
        rw [copyStr.eq_def]
        simp only [if_neg h, if_neg h2]
        rcases ih with ih | ⟨ih1, ih2⟩
        · left
          intro X
          rw [copyStr.eq_def]
          simp only [List.cons_append, if_neg h, if_neg h2]
          simp [ih X]
        · right
          refine ⟨by simpa using ih1, ?_⟩
          rw [copyStr.eq_def]
          simp only [List.cons_append, if_neg h, if_neg h2]
          simp [ih2]

/-- A nonempty result of `dropLine` starts with the newline it stopped at. -/
theorem dropLine_cons (cs : List Char) (c : Char) (t : List Char)
    (h : dropLine cs = c :: t) : c = '\n' := by
  induction cs with
  | nil => simp [dropLine] at h
  | cons d rest ih =>
    by_cases hd : d = '\n'
    · rw [dropLine, if_pos hd] at h
      cases h
      exact hd
    · rw [dropLine, if_neg hd] at h
      exact ih h

/-- `dropLine` only discards characters that are not newlines. -/
theorem dropLine_count (cs : List Char) :
    (dropLine cs).count '\n' = cs.count '\n' := by
  induction cs with
  | nil => simp [dropLine]
  | cons d rest ih =>
    by_cases hd : d = '\n'
    · simp [dropLine, hd]
    · rw [dropLine, if_neg hd, List.count_cons]
      simp [ih, hd]

/-- The first component of `dropBlock` consists of newlines only. -/
theorem dropBlock_fst_nl : ∀ cs : List Char, ∀ x ∈ (dropBlock cs).1, x = '\n'
  | [] => by simp [dropBlock]
  | [_] => by simp [dropBlock]
  | c :: d :: rest => by
    by_cases h : c = '*' ∧ d = '/'
    · simp [dropBlock, h]
    · have ih := dropBlock_fst_nl (d :: rest)
      rw [dropBlock.eq_def]
      simp only [if_neg h]
      by_cases hc : c = '\n'
      · intro x hx
        simp only [hc, if_pos rfl] at hx
        rcases List.mem_cons.mp hx with h' | h'
        · exact h'
        · exact ih x h'
      · simpa [hc] using ih

/-- Newline bookkeeping of the block-comment loop: the newlines of the
consumed region are collected in the first component. -/
theorem dropBlock_count : ∀ cs : List Char,
    cs.count '\n' = (dropBlock cs).1.length + (dropBlock cs).2.count '\n'
  | [] => by simp [dropBlock]
  | [c] => by
    rw [dropBlock.eq_def]
    simp
  | c :: d :: rest => by
    by_cases h : c = '*' ∧ d = '/'
    · rw [dropBlock.eq_def]
      simp only [if_pos h]
      obtain ⟨h1, h2⟩ := h
      subst h1; subst h2
      simp [List.count_cons]
    · have ih := dropBlock_count (d :: rest)
      rw [dropBlock.eq_def]
      simp only [if_neg h]
      by_cases hc : c = '\n'
      · subst hc
        simp [List.count_cons] at ih ⊢
        omega
      · simp [List.count_cons, hc] at ih ⊢
        omega

/-- The comment stripper preserves the number of newline characters. -/
theorem rc_count (cs0 : List Char) :
    (removeComments cs0).count '\n' = cs0.count '\n' := by
  generalize hn : cs0.length = n
  induction n using Nat.strong_induction_on generalizing cs0 with
  | _ n ih =>
    match cs0, hn with
    | [], _ => simp [rc_nil]
    | c :: rest, hn =>
      by_cases h1 : c = '\'' ∨ c = '"'
      · rw [rc_quote c h1 rest]
        have hq : ¬c = '\n' := by rcases h1 with h | h <;> subst h <;> decide
        have hlen : (copyStr c rest).2.length < n := by
          have := copyStr_snd_length c rest
          simp at hn
          omega
        have hrec := ih _ hlen (copyStr c rest).2 rfl
        have happ := copyStr_append c rest
        have hbody : ((copyStr c rest).1 ++ removeComments (copyStr c rest).2).count '\n'
            = rest.count '\n' := by
          rw [List.count_append, hrec, ← List.count_append, happ]
        simp [List.count_cons, hq, hbody]
      · push_neg at h1
        obtain ⟨hq1, hq2⟩ := h1
        by_cases h2 : c = '/' ∧ rest.head? = some '/'
        · obtain ⟨hc, hh⟩ := h2
          subst hc
          match rest, hh with
          | [], hh => simp at hh
          | d :: rest2, hh =>
            have hd : d = '/' := by simpa using hh
            subst hd
            rw [rc_line rest2]
            by_cases hdl : dropLine rest2 = []
            · rw [if_pos hdl]
              have : rest2.count '\n' = 0 := by
                rw [← dropLine_count, hdl]
                simp
              simp [List.count_cons, this]
            · rw [if_neg hdl]
              match hcons : dropLine rest2 with
              | [] => exact absurd hcons hdl
              | e :: t =>
                have he : e = '\n' := dropLine_cons rest2 e t hcons
                have hlen : t.length < n := by
                  have hdll := dropLine_length rest2
                  rw [hcons] at hdll
                  simp at hdll
                  simp at hn
                  omega
                have hrec := ih _ hlen t rfl
                have hcnt : rest2.count '\n' = 1 + t.count '\n' := by
                  rw [← dropLine_count rest2, hcons, List.count_cons]
                  simp [he]
                  omega
                simp [List.count_cons, hrec, hcnt]
                omega
        · by_cases h3 : c = '/' ∧ rest.head? = some '*'
          · obtain ⟨hc, hh⟩ := h3
            subst hc
            match rest, hh with
            | [], hh => simp at hh
            | d :: rest2, hh =>
              have hd : d = '*' := by simpa using hh
              subst hd
              rw [rc_block rest2]
              have hlen : (dropBlock rest2).2.length < n := by
                have := dropBlock_snd_length rest2
                simp at hn
                omega
              have hrec := ih _ hlen (dropBlock rest2).2 rfl
              have hnl := dropBlock_fst_nl rest2
              have hcnt := dropBlock_count rest2
              have hns : (dropBlock rest2).1.count '\n' = (dropBlock rest2).1.length :=
                List.count_eq_length.mpr (fun a ha => (hnl a ha).symm ▸ rfl)
              rw [List.count_append, hrec, hns]
              simp [List.count_cons]
              omega
          · rw [rc_other c rest hq1 hq2 h2 h3]
            have hlen : rest.length < n := by simp at hn; omega
            have hrec := ih _ hlen rest rfl
            simp [List.count_cons, hrec]

/-- The comment stripper is idempotent. -/
theorem rc_idem (cs0 : List Char) :
    removeComments (removeComments cs0) = removeComments cs0 := by
  generalize hn : cs0.length = n
  induction n using Nat.strong_induction_on generalizing cs0 with
  | _ n ih =>
    match cs0, hn with
    | [], _ => simp [rc_nil]
    | c :: rest, hn =>
      by_cases h1 : c = '\'' ∨ c = '"'
      · rw [rc_quote c h1 rest]
        have hq : c ≠ '\\' := by rcases h1 with h | h <;> subst h <;> decide
        have hlen : (copyStr c rest).2.length < n := by
          have := copyStr_snd_length c rest
          simp at hn
          omega
        have hrec := ih _ hlen (copyStr c rest).2 rfl
        rcases copyStr_rescan c hq rest with hre | ⟨hre1, hre2⟩
        · rw [rc_quote c h1, hre (removeComments (copyStr c rest).2), hrec]
        · rw [hre1, rc_nil, List.append_nil, rc_quote c h1, hre2, rc_nil,
            List.append_nil]
      · push_neg at h1
        obtain ⟨hq1, hq2⟩ := h1
        by_cases h2 : c = '/' ∧ rest.head? = some '/'
        · obtain ⟨hc, hh⟩ := h2
          subst hc
          match rest, hh with
          | [], hh => simp at hh
          | d :: rest2, hh =>
            have hd : d = '/' := by simpa using hh
            subst hd
            rw [rc_line rest2]
            by_cases hdl : dropLine rest2 = []
            · rw [if_pos hdl, rc_nil]
            · rw [if_neg hdl]
              match hcons : dropLine rest2 with
              | [] => exact absurd hcons hdl
              | e :: t =>
                have hlen : t.length < n := by
                  have hdll := dropLine_length rest2
                  rw [hcons] at hdll
                  simp at hdll
                  simp at hn
                  omega
                have hrec := ih _ hlen t rfl
                simp only [List.tail_cons]
                rw [rc_other '\n' (removeComments t) (by decide) (by decide)
                  (by simp) (by simp), hrec]
        · by_cases h3 : c = '/' ∧ rest.head? = some '*'
          · obtain ⟨hc, hh⟩ := h3
            subst hc
            match rest, hh with
            | [], hh => simp at hh
            | d :: rest2, hh =>
              have hd : d = '*' := by simpa using hh
              subst hd
              rw [rc_block rest2]
              have hlen : (dropBlock rest2).2.length < n := by
                have := dropBlock_snd_length rest2
                simp at hn
                omega
              have hrec := ih _ hlen (dropBlock rest2).2 rfl
              have hnl := dropBlock_fst_nl rest2
              have hpass : ∀ ns Y, (∀ x ∈ ns, x = '\n') →
                  removeComments (ns ++ Y) = ns ++ removeComments Y := by
                intro ns
                induction ns with
                | nil => intro Y _; simp
                | cons a as iha =>
                  intro Y hns
                  have ha : a = '\n' := hns a (by simp)
                  subst ha
                  rw [List.cons_append,
                    rc_other '\n' (as ++ Y) (by decide) (by decide) (by simp)
                      (by simp),
                    iha Y (fun x hx => hns x (by simp [hx]))]
                  simp
              rw [hpass _ _ hnl, hrec]
          · rw [rc_other c rest hq1 hq2 h2 h3]
            have hlen : rest.length < n := by simp at hn; omega
            have hrec := ih _ hlen rest rfl
            by_cases hc : c = '/'
            · subst hc
              have hh2 : rest.head? ≠ some '/' := fun hx => h2 ⟨rfl, hx⟩
              have hh3 : rest.head? ≠ some '*' := fun hx => h3 ⟨rfl, hx⟩
              have hhead : (removeComments rest).head? = rest.head? ∨
                  removeComments rest = [] := by
                match rest with
                | [] => right; exact rc_nil
                | d :: rest2 =>
                  by_cases hd1 : d = '\'' ∨ d = '"'
                  · left
                    rw [rc_quote d hd1 rest2]
                    simp
                  · push_neg at hd1
                    have hd2 : ¬(d = '/' ∧ rest2.head? = some '/') := by
                      intro ⟨hx, _⟩
                      exact hh2 (by simp [hx])
                    have hd3 : ¬(d = '/' ∧ rest2.head? = some '*') := by
                      intro ⟨hx, _⟩
                      exact hh2 (by simp [hx])
                    left
                    rw [rc_other d rest2 hd1.1 hd1.2 hd2 hd3]
                    simp
              have hr2 : ¬('/' = '/' ∧ (removeComments rest).head? = some '/') := by
                intro ⟨_, hx⟩
                rcases hhead with hh | hh
                · rw [hh] at hx; exact hh2 hx
                · rw [hh] at hx; simp at hx
              have hr3 : ¬('/' = '/' ∧ (removeComments rest).head? = some '*') := by
                intro ⟨_, hx⟩
                rcases hhead with hh | hh
                · rw [hh] at hx; exact hh3 hx
                · rw [hh] at hx; simp at hx
              rw [rc_other '/' (removeComments rest) hq1 hq2 hr2 hr3, hrec]
            · rw [rc_other c (removeComments rest) hq1 hq2
                (fun hx => hc hx.1) (fun hx => hc hx.1), hrec]

/-- C9: For every source text s, the comment stripper is idempotent —
strip(strip(s)) equals strip(s) — and strip(s) contains exactly the same
number of newline characters as s. -/
theorem claim_C9_strip_idempotent_newline_preserving (cs : List Char) :
    removeComments (removeComments cs) = removeComments cs ∧
    (removeComments cs).count '\n' = cs.count '\n' :=
  ⟨rc_idem cs, rc_count cs⟩

/-! ### Unterminated block comments (C5) -/

/-- Whether the list contains an adjacent `*/` pair (a block-comment
closer), i.e. whether a block comment opened just before it would be
terminated. -/
def hasStarSlash : List Char → Bool
  | [] => false
  | [_] => false
  | c :: d :: rest => (c = '*' && d = '/') || hasStarSlash (d :: rest)

/-- On a body with no `*/`, the block-comment loop collects the newlines
of all characters but the last and leaves the last character of the input
as the remainder for the outer loop. -/
theorem dropBlock_noClose : ∀ cs : List Char, hasStarSlash cs = false → cs ≠ [] →
    dropBlock cs = (cs.dropLast.filter (fun c => c = '\n'), cs.getLast?.toList)
  | [], _, h2 => absurd rfl h2
  | [c], _, _ => by simp [dropBlock]
  | c :: d :: rest, h1, _ => by
    have hps : hasStarSlash (c :: d :: rest) =
        ((c = '*' && d = '/') || hasStarSlash (d :: rest)) := by
      rw [hasStarSlash.eq_def]
    have hpair : ¬(c = '*' ∧ d = '/') := by
      intro ⟨hx, hy⟩
      subst hx; subst hy
      rw [hps] at h1
      simp at h1
    have h1' : hasStarSlash (d :: rest) = false := by
      rw [hps] at h1
      simp at h1
      exact h1.2
    have ih := dropBlock_noClose (d :: rest) h1' (by simp)
    rw [dropBlock.eq_def]
    simp only [if_neg hpair, ih]
    by_cases hc : c = '\n' <;> simp [hc]

/-- C5 counterexample: on the input `/*abc` — a block comment opener with
no closer — the stripper emits the final character `c`, a non-newline
character located after the unterminated `/*`, contradicting the claim
that everything after the `/*` is erased. -/
theorem claim_C5_counterexample :
    removeComments (str "/*abc") = str "c" ∧
    'c' ∈ removeComments (str "/*abc") ∧ ('c' = '\n' → False) := by
  refine ⟨?_, ?_, by decide⟩ <;>
    simp [str, removeComments, copyStr, dropBlock, dropLine]

/-- C5 amended: on `"/*" ++ body` where `body` contains no `*/` closer and
is nonempty, the stripper erases everything from the `/*` onwards except
the final character of the input: it keeps the newlines of the comment
body and the (arbitrary) last character, which the scan loop's
`i < length - 1` bound hands back to the outer loop. -/
theorem claim_C5_amended (body : List Char) (h1 : hasStarSlash body = false)
    (h2 : body ≠ []) :
    removeComments ('/' :: '*' :: body) =
      body.dropLast.filter (fun c => c = '\n') ++ body.getLast?.toList := by
  rw [rc_block body, dropBlock_noClose body h1 h2]
  match body, h2 with
  | b :: bs, _ =>
    have : (b :: bs).getLast? = some ((b :: bs).getLast (by simp)) := by
      simp [List.getLast?_eq_getLast]
    rw [this]
    simp only [Option.toList]
    rw [rc_single]

/-- C5 amended, witness: instantiation at the body `abc`. -/
theorem claim_C5_amended_witness :
    removeComments ('/' :: '*' :: str "abc") =
      (str "abc").dropLast.filter (fun c => c = '\n') ++
        (str "abc").getLast?.toList :=
  claim_C5_amended (str "abc") (by decide) (by decide)

/-! ## Balanced-delimiter scanner

Translation of `findMatchingClosingParen` and `findAtDepth`
(parenthesisCounter.ts).  Every caller in the mapping and contract
parsers passes `ignoreStrings: false`, so the string-literal skipping
branch of `findMatchingClosingParen` is dead code for this engine and
the embedding models the plain parenthesis count.  The TypeScript
functions return `-1` for "not found", modelled as `none`. -/

/-- Index-scanning loop of `findMatchingClosingParen`: `depth` is the
current parenthesis depth; on `)` the source decrements and returns the
index when the count reaches zero (depth kept as `Int` since the source
lets it go negative). -/
def findCloseGo : List Char → Nat → Int → Option Nat
  | [], _, _ => none
  | c :: rest, i, depth =>
    if c = '(' then findCloseGo rest (i + 1) (depth + 1)
    else if c = ')' then
      if depth = 1 then some i else findCloseGo rest (i + 1) (depth - 1)
    else findCloseGo rest (i + 1) depth

/-- Translation of `findMatchingClosingParen(str, startIndex,
{ignoreStrings: false})`. -/
def findMatchingClosingParen (cs : List Char) (startIndex : Nat) : Option Nat :=
  findCloseGo (cs.drop startIndex) startIndex 0

/-- Index-scanning loop of `findAtDepth`: the depth is updated for the
current character first (`(` increments, `)` decrements and aborts on a
negative count), then the needle is compared at the current position. -/
def findAtDepthGo (needle : List Char) (target : Int) :
    List Char → Nat → Int → Option Nat
  | [], _, _ => none
  | c :: rest, i, depth =>
    if c = '(' then
      if depth + 1 = target ∧ isPre needle (c :: rest) then some i
      else findAtDepthGo needle target rest (i + 1) (depth + 1)
    else if c = ')' then
      if depth - 1 < 0 then none
      else if depth - 1 = target ∧ isPre needle (c :: rest) then some i
      else findAtDepthGo needle target rest (i + 1) (depth - 1)
    else
      if depth = target ∧ isPre needle (c :: rest) then some i
      else findAtDepthGo needle target rest (i + 1) depth

/-- Translation of `findAtDepth(str, startIndex, searchStr, targetDepth)`. -/
def findAtDepth (cs : List Char) (startIndex : Nat) (needle : List Char)
    (target : Int) : Option Nat :=
  findAtDepthGo needle target (cs.drop startIndex) startIndex 0

/-! ## Mapping decomposer

Translation of `isMappingType`, `extractMappingType`,
`extractMappingValueType`, `extractMappingKeys` (mappingParser.ts) and
`extractFinalValueType` (contractParser.ts).  The recursion of
`extractMappingKeys` and `extractFinalValueType` is not structural in
the source; it is driven by strictly shorter substrings whenever the
scanners make progress, so the entry points use the input length as
fuel, which reproduces every terminating run of the original code. -/

/-- Translation of `isMappingType`. -/
def isMappingType (t : List Char) : Bool :=
  isPre (str "mapping(") (jsTrim t)

/-- Translation of `extractMappingType`: splits a leading mapping type
(balanced on its own parentheses) from the trailing text. -/
def extractMappingType (cs : List Char) : Option (List Char × List Char) :=
  if isPre (str "mapping(") cs then
    match findMatchingClosingParen cs 7 with
    | some closeIndex =>
      if 0 < closeIndex then
        some (cs.take (closeIndex + 1), jsTrim (cs.drop (closeIndex + 1)))
      else none
    | none => none
  else none

/-- Translation of `extractMappingValueType`: the text between the
depth-1 `=>` and the closing parenthesis of the outer mapping, trimmed;
any failure returns the input unchanged. -/
def extractMappingValueType (cs : List Char) : List Char :=
  if isPre (str "mapping(") cs then
    match findAtDepth cs 0 (str "=>") 1 with
    | some arrowIndex =>
      if 0 < arrowIndex then
        match findMatchingClosingParen cs 7 with
        | some closingParen =>
          if arrowIndex + 2 < closingParen then
            jsTrim ((cs.drop (arrowIndex + 2)).take (closingParen - (arrowIndex + 2)))
          else cs
        | none => cs
      else cs
    | none => cs
  else cs

/-- Recursion of `extractMappingKeys`, indexed by fuel. -/
def extractMappingKeysF : Nat → List Char → List (List Char)
  | 0, _ => []
  | fuel + 1, cs =>
    if isPre (str "mapping(") cs then
      match findAtDepth cs 0 (str "=>") 1 with
      | some arrowIndex =>
        if 0 < arrowIndex then
          let keyType := jsTrim ((cs.drop 8).take (arrowIndex - 8))
          let remaining := jsTrim (cs.drop (arrowIndex + 2))
          if isPre (str "mapping(") remaining then
            keyType :: extractMappingKeysF fuel remaining
          else [keyType]
        else []
      | none => []
    else []

/-- Translation of `extractMappingKeys`: the ordered key list of a
(possibly nested) mapping type. -/
def extractMappingKeys (cs : List Char) : List (List Char) :=
  extractMappingKeysF cs.length cs

/-- Recursion of `extractFinalValueType`, indexed by fuel. -/
def extractFinalValueTypeF : Nat → List Char → List Char
  | 0, t => t
  | fuel + 1, t =>
    if isMappingType t then extractFinalValueTypeF fuel (extractMappingValueType t)
    else t

/-- Translation of `extractFinalValueType` (contractParser.ts):
recursively extracts the value type until it is no longer a mapping. -/
def extractFinalValueType (t : List Char) : List Char :=
  extractFinalValueTypeF (t.length + 1) t

/-! ### Scan lemmas for the mapping decomposer (C6) -/

/-- Characters of a `true` prefix occur in the scanned list. -/
theorem isPre_mem : ∀ p w : List Char, isPre p w = true → ∀ c ∈ p, c ∈ w
  | [], _, _, c, hc => by simp at hc
  | _ :: _, [], h, _, _ => by simp [isPre] at h
  | p :: ps, w :: ws, h, c, hc => by
    rw [isPre] at h
    simp at h
    rcases List.mem_cons.mp hc with h' | h'
    · subst h'
      simp [h.1]
    · exact List.mem_cons_of_mem _ (isPre_mem ps ws h.2 c h')

/-- A string with no opening parenthesis never starts with `mapping(`. -/
theorem isPre_mapping_false (w : List Char) (hw : '(' ∉ w) :
    isPre (str "mapping(") w = false := by
  cases h : isPre (str "mapping(") w
  · rfl
  · exact absurd (isPre_mem _ w h '(' (by decide)) hw

theorem fadArrowSkip1 (c : Char) (h1 : c ≠ '(') (h2 : c ≠ ')') (h3 : c ≠ '=')
    (rest : List Char) (i : Nat) (d : Int) :
    findAtDepthGo (str "=>") 1 (c :: rest) i d =
      findAtDepthGo (str "=>") 1 rest (i + 1) d := by
  rw [findAtDepthGo]
  have hp : isPre (str "=>") (c :: rest) = false := by
    simp [str, isPre]
    intro hh
    exact absurd hh.symm h3
  simp [h1, h2, hp]

theorem fadArrowSkip : ∀ pre : List Char,
    (∀ c ∈ pre, c ≠ '(' ∧ c ≠ ')' ∧ c ≠ '=') →
    ∀ (rest : List Char) (i : Nat) (d : Int),
    findAtDepthGo (str "=>") 1 (pre ++ rest) i d =
      findAtDepthGo (str "=>") 1 rest (i + pre.length) d
  | [], _, rest, i, d => by simp
  | c :: pre', h, rest, i, d => by
    obtain ⟨h1, h2, h3⟩ := h c (by simp)
    rw [List.cons_append, fadArrowSkip1 c h1 h2 h3,
      fadArrowSkip pre' (fun x hx => h x (by simp [hx]))]
    have harith : i + 1 + pre'.length = i + (c :: pre').length := by
      simp
      omega
    rw [harith]

theorem fadArrowOpen (rest : List Char) (i : Nat) (d : Int) :
    findAtDepthGo (str "=>") 1 ('(' :: rest) i d =
      findAtDepthGo (str "=>") 1 rest (i + 1) (d + 1) := by
  rw [findAtDepthGo]
  have hp : isPre (str "=>") ('(' :: rest) = false := by simp [str, isPre]
  simp [hp]

theorem fadArrowHit (rest : List Char) (i : Nat) :
    findAtDepthGo (str "=>") 1 ('=' :: '>' :: rest) i 1 = some i := by
  rw [findAtDepthGo]
  have hp : isPre (str "=>") ('=' :: '>' :: rest) = true := by simp [str, isPre]
  simp [hp]

theorem fcgSkip1 (c : Char) (h1 : c ≠ '(') (h2 : c ≠ ')')
    (rest : List Char) (i : Nat) (d : Int) :
    findCloseGo (c :: rest) i d = findCloseGo rest (i + 1) d := by
  rw [findCloseGo]
  simp [h1, h2]

theorem fcgSkip : ∀ pre : List Char, (∀ c ∈ pre, c ≠ '(' ∧ c ≠ ')') →
    ∀ (rest : List Char) (i : Nat) (d : Int),
    findCloseGo (pre ++ rest) i d = findCloseGo rest (i + pre.length) d
  | [], _, rest, i, d => by simp
  | c :: pre', h, rest, i, d => by
    obtain ⟨h1, h2⟩ := h c (by simp)
    rw [List.cons_append, fcgSkip1 c h1 h2,
      fcgSkip pre' (fun x hx => h x (by simp [hx]))]
    have harith : i + 1 + pre'.length = i + (c :: pre').length := by
      simp
      omega
    rw [harith]

theorem fcgOpen (rest : List Char) (i : Nat) (d : Int) :
    findCloseGo ('(' :: rest) i d = findCloseGo rest (i + 1) (d + 1) := by
  rw [findCloseGo]
  simp

theorem fcgHit (rest : List Char) (i : Nat) :
    findCloseGo (')' :: rest) i 1 = some i := by
  rw [findCloseGo]
  simp

theorem fcgClose (rest : List Char) (i : Nat) (d : Int) (h : d ≠ 1) :
    findCloseGo (')' :: rest) i d = findCloseGo rest (i + 1) (d - 1) := by
  rw [findCloseGo]
  simp [h]

/-! ### Trim lemmas -/

theorem dropTrail_append_last (p : Char → Bool) (xs : List Char) (a : Char)
    (ha : p a = false) : dropTrailWhile p (xs ++ [a]) = xs ++ [a] := by
  simp [dropTrailWhile, List.dropWhile, ha]

theorem jsTrim_cons_space (cs : List Char) : jsTrim (' ' :: cs) = jsTrim cs := by
  simp [jsTrim, List.dropWhile]
  rfl

theorem jsTrim_eq_self (cs : List Char)
    (hh : ∀ c, cs.head? = some c → isWsChar c = false)
    (hl : ∀ c, cs.getLast? = some c → isWsChar c = false) : jsTrim cs = cs := by
  match cs with
  | [] => rfl
  | c :: rest =>
    have hc : isWsChar c = false := hh c rfl
    rw [jsTrim, List.dropWhile_cons, hc]
    simp only [Bool.false_eq_true, if_false]
    rw [dropTrailWhile]
    match hrev : (c :: rest).reverse with
    | [] => simp at hrev
    | a :: as =>
      have ha : (c :: rest).getLast? = some a := by
        rw [← List.head?_reverse, hrev]
        rfl
      rw [List.dropWhile_cons, hl a ha]
      simp only [Bool.false_eq_true, if_false]
      rw [← hrev, List.reverse_reverse]

theorem jsTrim_token_space (k : List Char) (hk : ∀ c ∈ k, isWsChar c = false) :
    jsTrim (k ++ [' ']) = k := by
  match k with
  | [] => rfl
  | c :: k' =>
    have hc : isWsChar c = false := hk c (by simp)
    rw [jsTrim, List.cons_append, List.dropWhile_cons, hc]
    simp only [Bool.false_eq_true, if_false]
    rw [dropTrailWhile]
    have hrv : (c :: (k' ++ [' '])).reverse = ' ' :: (c :: k').reverse := by simp
    rw [hrv, List.dropWhile_cons]
    simp only [show isWsChar ' ' = true from rfl, if_true]
    match hrev : (c :: k').reverse with
    | [] => simp at hrev
    | a :: as =>
      have ha : (c :: k').getLast? = some a := by
        rw [← List.head?_reverse, hrev]
        rfl
      have ha' : isWsChar a = false := by
        have hmem : a ∈ c :: k' := by
          have hmem0 : a ∈ (c :: k').reverse := by rw [hrev]; simp
          exact (List.mem_reverse).mp hmem0
        exact hk a hmem
      rw [List.dropWhile_cons, ha']
      simp only [Bool.false_eq_true, if_false]
      rw [← hrev, List.reverse_reverse]

/-- Additional trim helper: a list with a non-whitespace head and a
non-whitespace final element is left unchanged by `jsTrim`. -/
theorem jsTrim_head_app_last (c : Char) (mid : List Char) (a : Char)
    (hc : isWsChar c = false) (ha : isWsChar a = false) :
    jsTrim (c :: (mid ++ [a])) = c :: (mid ++ [a]) := by
  rw [jsTrim, List.dropWhile_cons, hc]
  simp only [Bool.false_eq_true, if_false]
  have hshape : c :: (mid ++ [a]) = (c :: mid) ++ [a] := by simp
  rw [hshape, dropTrail_append_last _ _ _ ha]

/-- A well-formed elementary type token for the C6 statement: nonempty
text with no parentheses, no arrow characters and no whitespace, the
shape of every Solidity elementary mapping key/value type. -/
def SimpleTypeToken (t : List Char) : Prop :=
  t ≠ [] ∧ ∀ c ∈ t, c ≠ '(' ∧ c ≠ ')' ∧ c ≠ '=' ∧ c ≠ '>' ∧ isWsChar c = false

instance (t : List Char) : Decidable (SimpleTypeToken t) := by
  unfold SimpleTypeToken
  infer_instance

theorem stok_fad {t : List Char} (h : SimpleTypeToken t) :
    ∀ c ∈ t, c ≠ '(' ∧ c ≠ ')' ∧ c ≠ '=' :=
  fun c hc => ⟨(h.2 c hc).1, (h.2 c hc).2.1, (h.2 c hc).2.2.1⟩

theorem stok_fcg {t : List Char} (h : SimpleTypeToken t) :
    ∀ c ∈ t, c ≠ '(' ∧ c ≠ ')' :=
  fun c hc => ⟨(h.2 c hc).1, (h.2 c hc).2.1⟩

theorem stok_ws {t : List Char} (h : SimpleTypeToken t) :
    ∀ c ∈ t, isWsChar c = false :=
  fun c hc => (h.2 c hc).2.2.2.2

theorem stok_noparen {t : List Char} (h : SimpleTypeToken t) : '(' ∉ t :=
  fun hc => (h.2 '(' hc).1 rfl

/-- Arrow location in a one-level `mapping(` shape: the depth-1 `=>` of
`mapping(` ++ k ++ ` =>` ++ X sits right after the key and the space. -/
theorem arrowShape (k X : List Char) (hk : SimpleTypeToken k) :
    findAtDepth (str "mapping" ++ ('(' :: (k ++ (' ' :: '=' :: '>' :: X)))) 0
      (str "=>") 1 = some (9 + k.length) := by
  rw [findAtDepth, List.drop_zero]
  rw [fadArrowSkip (str "mapping") (by decide)]
  rw [fadArrowOpen]
  rw [fadArrowSkip k (stok_fad hk)]
  rw [fadArrowSkip1 ' ' (by decide) (by decide) (by decide)]
  simp only [zero_add]
  rw [fadArrowHit]
  congr 1
  simp [str]
  omega

/-- Dropping the `mapping(` prefix of the one-level shape. -/
theorem dropEight (k X : List Char) :
    (str "mapping" ++ ('(' :: (k ++ (' ' :: '=' :: '>' :: (' ' :: X))))).drop 8 =
      k ++ (' ' :: '=' :: '>' :: (' ' :: X)) := by
  have hshape : str "mapping" ++ ('(' :: (k ++ (' ' :: '=' :: '>' :: (' ' :: X)))) =
      (str "mapping" ++ ['(']) ++ (k ++ (' ' :: '=' :: '>' :: (' ' :: X))) := by
    simp
  rw [hshape]
  have hlen : (str "mapping" ++ ['(']).length = 8 := by decide
  rw [← hlen, List.drop_left]

/-- Dropping past the `=>` of the one-level shape. -/
theorem dropArrow (k X : List Char) :
    (str "mapping" ++ ('(' :: (k ++ (' ' :: '=' :: '>' :: (' ' :: X))))).drop
      (9 + k.length + 2) = ' ' :: X := by
  have hshape : str "mapping" ++ ('(' :: (k ++ (' ' :: '=' :: '>' :: (' ' :: X)))) =
      ((str "mapping" ++ ['(']) ++ (k ++ [' ', '=', '>'])) ++ (' ' :: X) := by
    simp
  rw [hshape]
  have hlen : ((str "mapping" ++ ['(']) ++ (k ++ [' ', '=', '>'])).length =
      9 + k.length + 2 := by
    simp [str]
    omega
  rw [← hlen, List.drop_left]

/-- One unfolding of `extractMappingKeysF` on the one-level shape. -/
theorem emkStep (fuel : Nat) (k X : List Char) (hk : SimpleTypeToken k) :
    extractMappingKeysF (fuel + 1)
        (str "mapping" ++ ('(' :: (k ++ (' ' :: '=' :: '>' :: (' ' :: X))))) =
      (if isPre (str "mapping(") (jsTrim X) then
        k :: extractMappingKeysF fuel (jsTrim X)
      else [k]) := by
  rw [extractMappingKeysF]
  have hpre : isPre (str "mapping(")
      (str "mapping" ++ ('(' :: (k ++ (' ' :: '=' :: '>' :: (' ' :: X))))) = true := by
    simp [str, isPre]
  rw [if_pos hpre]
  rw [arrowShape k (' ' :: X) hk]
  have hpos : 0 < 9 + k.length := by omega
  simp only [hpos, if_true]
  have hkey : jsTrim (((str "mapping" ++
      ('(' :: (k ++ (' ' :: '=' :: '>' :: (' ' :: X))))).drop 8).take
        (9 + k.length - 8)) = k := by
    rw [dropEight]
    have harith : 9 + k.length - 8 = k.length + 1 := by omega
    rw [harith]
    have htake : (k ++ (' ' :: '=' :: '>' :: (' ' :: X))).take (k.length + 1) =
        k ++ [' '] := by
      rw [List.take_append]
      simp
    rw [htake, jsTrim_token_space k (stok_ws hk)]
  have hrem : jsTrim ((str "mapping" ++
      ('(' :: (k ++ (' ' :: '=' :: '>' :: (' ' :: X))))).drop (9 + k.length + 2)) =
        jsTrim X := by
    rw [dropArrow, jsTrim_cons_space]
  rw [hkey, hrem]

/-- All keys of the nested two-level shape, for any sufficient fuel. -/
theorem emkNested (f : Nat) (k1 k2 v : List Char)
    (h1 : SimpleTypeToken k1) (h2 : SimpleTypeToken k2) (hv : SimpleTypeToken v) :
    extractMappingKeysF (f + 2)
      (str "mapping" ++ ('(' :: (k1 ++ (' ' :: '=' :: '>' :: (' ' ::
        (str "mapping" ++ ('(' :: (k2 ++ (' ' :: '=' :: '>' :: (' ' ::
          (v ++ [')', ')']))))))))))) = [k1, k2] := by
  rw [emkStep (f + 1) k1 _ h1]
  have hX1trim : jsTrim (str "mapping" ++ ('(' :: (k2 ++ (' ' :: '=' :: '>' ::
      (' ' :: (v ++ [')', ')'])))))) =
      str "mapping" ++ ('(' :: (k2 ++ (' ' :: '=' :: '>' ::
        (' ' :: (v ++ [')', ')']))))) := by
    have hshape : str "mapping" ++ ('(' :: (k2 ++ (' ' :: '=' :: '>' ::
        (' ' :: (v ++ [')', ')']))))) =
        'm' :: ((str "apping" ++ ('(' :: (k2 ++ (' ' :: '=' :: '>' ::
          (' ' :: (v ++ [')'])))))) ++ [')']) := by
      simp [str]
    rw [hshape, jsTrim_head_app_last _ _ _ (by decide) (by decide)]
  rw [hX1trim]
  have hX1pre : isPre (str "mapping(") (str "mapping" ++ ('(' :: (k2 ++
      (' ' :: '=' :: '>' :: (' ' :: (v ++ [')', ')'])))))) = true := by
    simp [str, isPre]
  rw [if_pos hX1pre]
  rw [emkStep f k2 _ h2]
  have hX2trim : jsTrim (v ++ [')', ')']) = v ++ [')', ')'] := by
    match v, hv.1 with
    | c :: v', _ =>
      have hshape : (c :: v') ++ [')', ')'] = c :: ((v' ++ [')']) ++ [')']) := by
        simp
      rw [hshape, jsTrim_head_app_last _ _ _ (stok_ws hv c (by simp)) (by decide)]
  rw [hX2trim]
  have hX2pre : isPre (str "mapping(") (v ++ [')', ')']) = false := by
    apply isPre_mapping_false
    intro hmem
    rcases List.mem_append.mp hmem with hmem | hmem
    · exact stok_noparen hv hmem
    · simp at hmem
  rw [if_neg (by simp [hX2pre])]

theorem jsTrim_all_noWs (cs : List Char) (h : ∀ c ∈ cs, isWsChar c = false) :
    jsTrim cs = cs := by
  apply jsTrim_eq_self
  · intro c hc
    match cs, hc, h with
    | c' :: rest, hc, h =>
      have hcc : c' = c := by simpa using hc
      subst hcc
      exact h c' (by simp)
  · intro c hc
    rw [← List.head?_reverse] at hc
    cases hrev : cs.reverse with
    | nil => rw [hrev] at hc; simp at hc
    | cons a as =>
      rw [hrev] at hc
      simp at hc
      subst hc
      apply h
      rw [← List.mem_reverse, hrev]
      simp

/-- Dropping the first seven characters of a `mapping`-prefixed list. -/
theorem dropSeven (T : List Char) : (str "mapping" ++ T).drop 7 = T := by
  have hlen : (str "mapping").length = 7 := by decide
  rw [← hlen, List.drop_left]

/-- Closing parenthesis of the inner one-level mapping shape. -/
theorem closeInner (k Y : List Char) (hk : SimpleTypeToken k)
    (hY : ∀ c ∈ Y, c ≠ '(' ∧ c ≠ ')') :
    findMatchingClosingParen
      (str "mapping" ++ ('(' :: (k ++ (' ' :: '=' :: '>' :: (' ' :: (Y ++ [')']))))))
      7 = some (12 + k.length + Y.length) := by
  rw [findMatchingClosingParen, dropSeven]
  rw [fcgOpen, fcgSkip k (stok_fcg hk),
    fcgSkip1 ' ' (by decide) (by decide), fcgSkip1 '=' (by decide) (by decide),
    fcgSkip1 '>' (by decide) (by decide), fcgSkip1 ' ' (by decide) (by decide),
    fcgSkip Y hY]
  simp only [zero_add]
  rw [fcgHit]
  congr 1
  omega

/-- Closing parenthesis of the outer two-level mapping shape. -/
theorem closeOuter (k1 k2 v : List Char) (h1 : SimpleTypeToken k1)
    (h2 : SimpleTypeToken k2) (hv : SimpleTypeToken v) :
    findMatchingClosingParen
      (str "mapping" ++ ('(' :: (k1 ++ (' ' :: '=' :: '>' :: (' ' ::
        (str "mapping" ++ ('(' :: (k2 ++ (' ' :: '=' :: '>' :: (' ' ::
          (v ++ [')', ')'])))))))))))
      7 = some (25 + k1.length + k2.length + v.length) := by
  rw [findMatchingClosingParen, dropSeven]
  rw [fcgOpen, fcgSkip k1 (stok_fcg h1),
    fcgSkip1 ' ' (by decide) (by decide), fcgSkip1 '=' (by decide) (by decide),
    fcgSkip1 '>' (by decide) (by decide), fcgSkip1 ' ' (by decide) (by decide),
    fcgSkip (str "mapping") (by decide), fcgOpen, fcgSkip k2 (stok_fcg h2),
    fcgSkip1 ' ' (by decide) (by decide), fcgSkip1 '=' (by decide) (by decide),
    fcgSkip1 '>' (by decide) (by decide), fcgSkip1 ' ' (by decide) (by decide),
    fcgSkip v (stok_fcg hv)]
  rw [fcgClose _ _ _ (by norm_num)]
  have hone : (0 : Int) + 1 + 1 - 1 = 1 := by norm_num
  rw [hone, fcgHit]
  congr 1
  simp [str]
  omega

/-- The value type of the outer mapping of the two-level shape is the
inner mapping type (with its own closing parenthesis), trimmed. -/
theorem evtOuter (k1 k2 v : List Char) (h1 : SimpleTypeToken k1)
    (h2 : SimpleTypeToken k2) (hv : SimpleTypeToken v) :
    extractMappingValueType
      (str "mapping" ++ ('(' :: (k1 ++ (' ' :: '=' :: '>' :: (' ' ::
        (str "mapping" ++ ('(' :: (k2 ++ (' ' :: '=' :: '>' :: (' ' ::
          (v ++ [')', ')'])))))))))))
      = str "mapping" ++ ('(' :: (k2 ++ (' ' :: '=' :: '>' :: (' ' ::
          (v ++ [')']))))) := by
  rw [extractMappingValueType]
  have hpre : isPre (str "mapping(")
      (str "mapping" ++ ('(' :: (k1 ++ (' ' :: '=' :: '>' :: (' ' ::
        (str "mapping" ++ ('(' :: (k2 ++ (' ' :: '=' :: '>' :: (' ' ::
          (v ++ [')', ')']))))))))))) = true := by
    simp [str, isPre]
  rw [if_pos hpre, arrowShape k1 _ h1, closeOuter k1 k2 v h1 h2 hv]
  dsimp only
  have hpos : 0 < 9 + k1.length := by omega
  rw [if_pos hpos]
  have hlt : 9 + k1.length + 2 < 25 + k1.length + k2.length + v.length := by omega
  rw [if_pos hlt]
  rw [dropArrow k1 _]
  have harith : 25 + k1.length + k2.length + v.length - (9 + k1.length + 2) =
      14 + k2.length + v.length := by omega
  rw [harith]
  have hsplit : (' ' :: (str "mapping" ++ ('(' :: (k2 ++ (' ' :: '=' :: '>' ::
      (' ' :: (v ++ [')', ')']))))))) =
      (' ' :: (str "mapping" ++ ('(' :: (k2 ++ (' ' :: '=' :: '>' ::
        (' ' :: (v ++ [')']))))))) ++ [')'] := by
    simp
  rw [hsplit]
  have hlen : (' ' :: (str "mapping" ++ ('(' :: (k2 ++ (' ' :: '=' :: '>' ::
      (' ' :: (v ++ [')']))))))).length = 14 + k2.length + v.length := by
    simp [str]
    omega
  rw [← hlen, List.take_left, jsTrim_cons_space]
  have hshape : str "mapping" ++ ('(' :: (k2 ++ (' ' :: '=' :: '>' ::
      (' ' :: (v ++ [')']))))) =
      'm' :: ((str "apping" ++ ('(' :: (k2 ++ (' ' :: '=' :: '>' ::
        (' ' :: v))))) ++ [')']) := by
    simp [str]
  rw [hshape, jsTrim_head_app_last _ _ _ (by decide) (by decide)]

/-- The value type of the inner one-level mapping shape is the raw value. -/
theorem evtInner (k v : List Char) (hk : SimpleTypeToken k)
    (hv : SimpleTypeToken v) :
    extractMappingValueType
      (str "mapping" ++ ('(' :: (k ++ (' ' :: '=' :: '>' :: (' ' ::
        (v ++ [')'])))))) = v := by
  rw [extractMappingValueType]
  have hpre : isPre (str "mapping(")
      (str "mapping" ++ ('(' :: (k ++ (' ' :: '=' :: '>' :: (' ' ::
        (v ++ [')'])))))) = true := by
    simp [str, isPre]
  rw [if_pos hpre, arrowShape k _ hk, closeInner k v hk (stok_fcg hv)]
  dsimp only
  have hpos : 0 < 9 + k.length := by omega
  rw [if_pos hpos]
  have hvpos : 0 < v.length := List.length_pos.mpr hv.1
  have hlt : 9 + k.length + 2 < 12 + k.length + v.length := by omega
  rw [if_pos hlt]
  rw [dropArrow k _]
  have harith : 12 + k.length + v.length - (9 + k.length + 2) = 1 + v.length := by
    omega
  rw [harith]
  have hsplit : (' ' :: (v ++ [')'])) = (' ' :: v) ++ [')'] := by simp
  rw [hsplit]
  have hlen : (' ' :: v).length = 1 + v.length := by simp; omega
  rw [← hlen, List.take_left, jsTrim_cons_space]
  exact jsTrim_all_noWs v (stok_ws hv)

/-- The recursive final-value extraction of the two-level shape reaches
the raw value in three steps. -/
theorem finalNested (f : Nat) (k1 k2 v : List Char) (h1 : SimpleTypeToken k1)
    (h2 : SimpleTypeToken k2) (hv : SimpleTypeToken v) :
    extractFinalValueTypeF (f + 3)
      (str "mapping" ++ ('(' :: (k1 ++ (' ' :: '=' :: '>' :: (' ' ::
        (str "mapping" ++ ('(' :: (k2 ++ (' ' :: '=' :: '>' :: (' ' ::
          (v ++ [')', ')'])))))))))))
      = v := by
  have hmt1 : isMappingType (str "mapping" ++ ('(' :: (k1 ++ (' ' :: '=' :: '>' ::
      (' ' :: (str "mapping" ++ ('(' :: (k2 ++ (' ' :: '=' :: '>' :: (' ' ::
        (v ++ [')', ')']))))))))))) = true := by
    rw [isMappingType]
    have hshape : str "mapping" ++ ('(' :: (k1 ++ (' ' :: '=' :: '>' :: (' ' ::
        (str "mapping" ++ ('(' :: (k2 ++ (' ' :: '=' :: '>' :: (' ' ::
          (v ++ [')', ')'])))))))))) =
        'm' :: ((str "apping" ++ ('(' :: (k1 ++ (' ' :: '=' :: '>' :: (' ' ::
          (str "mapping" ++ ('(' :: (k2 ++ (' ' :: '=' :: '>' :: (' ' ::
            (v ++ [')']))))))))))) ++ [')']) := by
      simp [str]
    rw [hshape, jsTrim_head_app_last _ _ _ (by decide) (by decide), ← hshape]
    simp [str, isPre]
  have h3eq : f + 3 = (f + 2) + 1 := rfl
  rw [h3eq, extractFinalValueTypeF, if_pos hmt1, evtOuter k1 k2 v h1 h2 hv]
  have hmt2 : isMappingType (str "mapping" ++ ('(' :: (k2 ++ (' ' :: '=' :: '>' ::
      (' ' :: (v ++ [')'])))))) = true := by
    rw [isMappingType]
    have hshape : str "mapping" ++ ('(' :: (k2 ++ (' ' :: '=' :: '>' :: (' ' ::
        (v ++ [')']))))) =
        'm' :: ((str "apping" ++ ('(' :: (k2 ++ (' ' :: '=' :: '>' ::
          (' ' :: v))))) ++ [')']) := by
      simp [str]
    rw [hshape, jsTrim_head_app_last _ _ _ (by decide) (by decide), ← hshape]
    simp [str, isPre]
  have h2eq : f + 2 = (f + 1) + 1 := rfl
  rw [h2eq, extractFinalValueTypeF, if_pos hmt2, evtInner k2 v h2 hv]
  have hmtv : isMappingType v = false := by
    rw [isMappingType, jsTrim_all_noWs v (stok_ws hv)]
    exact isPre_mapping_false v (stok_noparen hv)
  rw [extractFinalValueTypeF, if_neg (by simp [hmtv])]

/-- C6: For every well-formed nested mapping type string
`mapping(K1 => mapping(K2 => V))` (elementary type tokens K1, K2, V),
the key-extraction function returns exactly [K1, K2] in outer-to-inner
order, and recursively applying value-type extraction until the result
is no longer a mapping yields exactly V. -/
theorem claim_C6_nested_mapping_keys_value (k1 k2 v : List Char)
    (h1 : SimpleTypeToken k1) (h2 : SimpleTypeToken k2) (hv : SimpleTypeToken v) :
    extractMappingKeys (str "mapping(" ++ k1 ++ str " => mapping(" ++ k2 ++
        str " => " ++ v ++ str "))") = [k1, k2] ∧
    extractFinalValueType (str "mapping(" ++ k1 ++ str " => mapping(" ++ k2 ++
        str " => " ++ v ++ str "))") = v := by
  have hS : str "mapping(" ++ k1 ++ str " => mapping(" ++ k2 ++
      str " => " ++ v ++ str "))" =
      str "mapping" ++ ('(' :: (k1 ++ (' ' :: '=' :: '>' :: (' ' ::
        (str "mapping" ++ ('(' :: (k2 ++ (' ' :: '=' :: '>' :: (' ' ::
          (v ++ [')', ')'])))))))))) := by
    simp [str]
  constructor
  · rw [extractMappingKeys, hS]
    have hlen : (str "mapping" ++ ('(' :: (k1 ++ (' ' :: '=' :: '>' :: (' ' ::
        (str "mapping" ++ ('(' :: (k2 ++ (' ' :: '=' :: '>' :: (' ' ::
          (v ++ [')', ')']))))))))))).length =
        (24 + k1.length + k2.length + v.length) + 2 := by
      simp [str]
      omega
    rw [hlen]
    exact emkNested _ k1 k2 v h1 h2 hv
  · rw [extractFinalValueType, hS]
    have hlen : (str "mapping" ++ ('(' :: (k1 ++ (' ' :: '=' :: '>' :: (' ' ::
        (str "mapping" ++ ('(' :: (k2 ++ (' ' :: '=' :: '>' :: (' ' ::
          (v ++ [')', ')']))))))))))).length + 1 =
        (24 + k1.length + k2.length + v.length) + 3 := by
      simp [str]
      omega
    rw [hlen]
    exact finalNested _ k1 k2 v h1 h2 hv

/-- C6 witness: the nested mapping `mapping(address => mapping(uint256 =>
bool))` has keys [address, uint256] and final value type bool. -/
theorem claim_C6_witness :
    extractMappingKeys (str "mapping(" ++ str "address" ++ str " => mapping(" ++
        str "uint256" ++ str " => " ++ str "bool" ++ str "))") =
      [str "address", str "uint256"] ∧
    extractFinalValueType (str "mapping(" ++ str "address" ++
        str " => mapping(" ++ str "uint256" ++ str " => " ++ str "bool" ++
        str "))") = str "bool" :=
  claim_C6_nested_mapping_keys_value (str "address") (str "uint256") (str "bool")
    (by decide) (by decide) (by decide)

/-! ## Parameter/return clause parser

Translation of `splitByComma`, `parseParamOrReturn`, `normalizeType`
and `isCustomType` (parameterParser.ts), plus the storage-location
regexp replacements they perform. -/

/-- Loop of `splitByComma`: accumulates the current segment, tracking
parenthesis depth; a top-level comma pushes the trimmed segment if
nonempty (JavaScript truthiness of `current.trim()`). -/
def splitGo : List Char → List Char → Int → List (List Char)
  | [], current, _ =>
    if jsTrim current ≠ [] then [jsTrim current] else []
  | c :: rest, current, depth =>
    if c = '(' then splitGo rest (current ++ [c]) (depth + 1)
    else if c = ')' then splitGo rest (current ++ [c]) (depth - 1)
    else if c = ',' ∧ depth = 0 then
      (if jsTrim current ≠ [] then [jsTrim current] else []) ++
        splitGo rest [] depth
    else splitGo rest (current ++ [c]) depth

/-- Translation of `splitByComma`. -/
def splitByComma (cs : List Char) : List (List Char) :=
  splitGo cs [] 0

/-- Heads surviving `dropWhile` falsify the predicate. -/
theorem dropWhile_head_not (p : Char → Bool) :
    ∀ cs c, (List.dropWhile p cs).head? = some c → p c = false := by
  intro cs
  induction cs with
  | nil => intro c hc; simp at hc
  | cons d rest ih =>
    intro c hc
    by_cases hd : p d
    · rw [List.dropWhile_cons, if_pos hd] at hc
      exact ih c hc
    · rw [List.dropWhile_cons, if_neg hd] at hc
      simp at hc
      subst hc
      simpa using hd

theorem jsTrim_last_not (cs : List Char) (c : Char)
    (hc : (jsTrim cs).getLast? = some c) : isWsChar c = false := by
  rw [jsTrim, dropTrailWhile, List.getLast?_reverse] at hc
  exact dropWhile_head_not isWsChar _ c hc

theorem jsTrim_head_not (cs : List Char) (c : Char)
    (hc : (jsTrim cs).head? = some c) : isWsChar c = false := by
  rw [jsTrim, dropTrailWhile, List.head?_reverse] at hc
  set X := List.dropWhile isWsChar cs with hX
  set Y := List.dropWhile isWsChar X.reverse with hY
  obtain ⟨W, hW⟩ := List.dropWhile_suffix (l := X.reverse) (p := isWsChar)
  have hne : Y ≠ [] := by
    intro hnil
    rw [hnil] at hc
    simp at hc
  have h1 : Y.getLast? = (W ++ Y).getLast? :=
    (List.getLast?_append_of_ne_nil W hne).symm
  rw [hW, List.getLast?_reverse] at h1
  rw [h1] at hc
  exact dropWhile_head_not isWsChar cs c (hX ▸ hc)

/-- JavaScript `trim` is idempotent. -/
theorem jsTrim_idem (cs : List Char) : jsTrim (jsTrim cs) = jsTrim cs :=
  jsTrim_eq_self _ (jsTrim_head_not cs) (jsTrim_last_not cs)

/-- Invariant of the `splitByComma` loop: every emitted segment is a
nonempty, already-trimmed string. -/
theorem splitGo_mem : ∀ (s current : List Char) (depth : Int) (e : List Char),
    e ∈ splitGo s current depth → e ≠ [] ∧ jsTrim e = e
  | [], current, depth, e, he => by
    rw [splitGo] at he
    by_cases h : jsTrim current ≠ []
    · rw [if_pos h] at he
      simp at he
      subst he
      exact ⟨h, jsTrim_idem current⟩
    · rw [if_neg h] at he
      simp at he
  | c :: rest, current, depth, e, he => by
    rw [splitGo] at he
    by_cases h1 : c = '('
    · rw [if_pos h1] at he
      exact splitGo_mem rest _ _ e he
    · rw [if_neg h1] at he
      by_cases h2 : c = ')'
      · rw [if_pos h2] at he
        exact splitGo_mem rest _ _ e he
      · rw [if_neg h2] at he
        by_cases h3 : c = ',' ∧ depth = 0
        · rw [if_pos h3] at he
          rcases List.mem_append.mp he with he | he
          · by_cases h : jsTrim current ≠ []
            · rw [if_pos h] at he
              simp at he
              subst he
              exact ⟨h, jsTrim_idem current⟩
            · rw [if_neg h] at he
              simp at he
          · exact splitGo_mem rest _ _ e he
        · rw [if_neg h3] at he
          exact splitGo_mem rest _ _ e he

/-- C10: every element returned by the top-level comma splitter is a
nonempty string equal to its own trimmed form; empty or whitespace-only
segments are dropped rather than returned. -/
theorem claim_C10_splitByComma_elements_trimmed_nonempty
    (s e : List Char) (he : e ∈ splitByComma s) : e ≠ [] ∧ jsTrim e = e :=
  splitGo_mem s [] 0 e he

/-- C10 witness: instantiation on a parameter list with stray commas and
whitespace-only segments. -/
theorem claim_C10_witness :
    str "uint256 a" ∈ splitByComma (str ", uint256 a, , bool b ,") ∧
    (str "uint256 a" ≠ [] ∧ jsTrim (str "uint256 a") = str "uint256 a") :=
  ⟨by decide,
    claim_C10_splitByComma_elements_trimmed_nonempty
      (str ", uint256 a, , bool b ,") (str "uint256 a") (by decide)⟩

/-- Case-insensitive prefix test (regexp `i` flag on a literal). -/
def ciIsPre : List Char → List Char → Bool
  | [], _ => true
  | _ :: _, [] => false
  | p :: ps, c :: cs => toLowerCh c = toLowerCh p && ciIsPre ps cs

/-- Translation of the regexp replace
`type.replace(/\s+(memory|storage|calldata)\s*$/i, '')` used by
`SOLIDITY_PATTERNS.STORAGE_LOCATION` (`normalizeType`,
`resolveTypeName` and the mapping value-type cleanup): when the text,
after optional trailing whitespace, ends in one of the three keywords
(case-insensitively) preceded by at least one whitespace character, the
whitespace run and everything after it is removed; otherwise the text
is returned unchanged. -/
def removeStorageSuffix (cs : List Char) : List Char :=
  let core := dropTrailWhile isWsChar cs
  let r := core.reverse
  let tryW : List Char → Option (List Char) := fun w =>
    if ciIsPre w.reverse r then
      let r2 := r.drop w.length
      match r2.head? with
      | some c =>
        if isWsChar c then some ((r2.dropWhile isWsChar).reverse) else none
      | none => none
    else none
  match tryW (str "memory") with
  | some res => res
  | none =>
    match tryW (str "storage") with
    | some res => res
    | none =>
      match tryW (str "calldata") with
      | some res => res
      | none => cs

/-- Boundary check after a matched keyword (`\b`): end of input or a
non-word character. -/
def wordBoundAfter (rest : List Char) : Bool :=
  match rest.head? with
  | none => true
  | some c => !isWordChar c

/-- Tries to match one of `memory`/`storage`/`calldata`
case-insensitively at the current position, requiring a word boundary
after it (the three alternatives start with distinct letters, so at
most one can match). -/
def tryStorageWord (cs : List Char) : Option (List Char × List Char) :=
  match matchCI (str "memory") cs with
  | some t => if wordBoundAfter t.2 then some t else none
  | none =>
    match matchCI (str "storage") cs with
    | some t => if wordBoundAfter t.2 then some t else none
    | none =>
      match matchCI (str "calldata") cs with
      | some t => if wordBoundAfter t.2 then some t else none
      | none => none

/-- Translation of the global regexp replace
`.replace(/\b(memory|storage|calldata)\b/gi, repl)`: a left-to-right
scan; a keyword may only start where the previous character is not a
word character (`\b`), and each match is replaced by `repl`.  The
boolean argument tracks whether the previous character was a word
character; fuel is the input length (every step consumes at least one
character). -/
def replStorageF (repl : List Char) : Nat → List Char → Bool → List Char
  | 0, _, _ => []
  | _ + 1, [], _ => []
  | fuel + 1, c :: rest, prevWord =>
    match (if prevWord then none else tryStorageWord (c :: rest)) with
    | some t => repl ++ replStorageF repl fuel t.2 true
    | none => c :: replStorageF repl fuel rest (isWordChar c)

/-- Entry point of the storage-keyword replacement. -/
def replaceStorageWords (repl cs : List Char) : List Char :=
  replStorageF repl cs.length cs false

/-- Recursion of the regexp replace `.replace(/\s+/g, ' ')`, indexed
by fuel (each step consumes at least one character, so the input length
is always enough fuel): every whitespace run collapses to one space. -/
def squeezeWsF : Nat → List Char → List Char
  | 0, _ => []
  | _ + 1, [] => []
  | fuel + 1, c :: rest =>
    if isWsChar c then ' ' :: squeezeWsF fuel (rest.dropWhile isWsChar)
    else c :: squeezeWsF fuel rest

/-- Entry point of the whitespace squeeze. -/
def squeezeWs (cs : List Char) : List Char :=
  squeezeWsF cs.length cs

/-- Translation of `normalizeType`: strips the trailing
storage-location keyword and trims. -/
def normalizeType (t : List Char) : List Char :=
  jsTrim (removeStorageSuffix t)

/-- Translation of `resolveTypeName` (contractParser.ts): strips the
storage-location suffix, trims, and keeps the last dot-separated part. -/
def resolveTypeName (t : List Char) : List Char :=
  let withoutStorage := jsTrim (removeStorageSuffix t)
  ((splitOnCh '.' withoutStorage).getLast?).getD []

/-- Translation of `isCustomType`: after normalization, a dot anywhere,
or a first character equal to its own upper-casing together with no
built-in type prefix (`uint|int|bytes|address|bool|string|mapping`). -/
def isCustomType (t : List Char) : Bool :=
  let cleanType := normalizeType t
  containsSub (str ".") cleanType ||
    (decide (0 < cleanType.length) &&
      (match cleanType.head? with
        | some c => toUpperCh c = c
        | none => false) &&
      !(isPre (str "uint") cleanType || isPre (str "int") cleanType ||
        isPre (str "bytes") cleanType || isPre (str "address") cleanType ||
        isPre (str "bool") cleanType || isPre (str "string") cleanType ||
        isPre (str "mapping") cleanType))

/-- Translation of the anchored `TYPE_WITH_NAME` pattern
`^([a-zA-Z_][a-zA-Z0-9_.\[\]]*)(?:\s+(\w+))?$`: a type token, optionally
followed by whitespace and a name, consuming the whole string.  The
character classes of the token, the whitespace and the name are mutually
exclusive at each boundary, so the greedy match is deterministic. -/
def typeWithName (cs : List Char) : Option (List Char × List Char) :=
  match cs with
  | [] => none
  | c :: _ =>
    if isIdentStart c then
      let t := cs.takeWhile isTypeTokenChar
      let r := cs.dropWhile isTypeTokenChar
      match r with
      | [] => some (t, [])
      | _ :: _ =>
        let ws := r.takeWhile isWsChar
        let r2 := r.dropWhile isWsChar
        if ws = [] then none
        else
          let n := r2.takeWhile isWordChar
          let r3 := r2.dropWhile isWordChar
          if n ≠ [] ∧ r3 = [] then some (t, n) else none
    else none

/-- Translation of `parseParamOrReturn`: mapping types keep the full
mapping string as the type with the following identifier as the name;
otherwise storage keywords are blanked, whitespace squeezed, and the
`TYPE_WITH_NAME` pattern splits type from optional name, falling back to
"whole string is the type". -/
def parseParamOrReturn (s : List Char) : List Char × List Char :=
  let trimmed := jsTrim s
  match extractMappingType trimmed with
  | some mr =>
    let remainder := jsTrim (replaceStorageWords [] mr.2)
    (mr.1, remainder.takeWhile isWordChar)
  | none =>
    let withoutStorage := jsTrim (squeezeWs (replaceStorageWords [' '] trimmed))
    match typeWithName withoutStorage with
    | some tn => (jsTrim tn.1, tn.2)
    | none => (withoutStorage, [])

/-! ## Data model

The record types of `types.ts`, specialized to what the parser
produces.  `Comp` is an ABI component/output: a name, a type string,
and (only when the value is a struct expanded to a tuple) a components
list — the `Option` distinguishes an absent `components` key from an
empty one, as in the JavaScript objects. -/

/-- One raw struct member: its source type text and field name. -/
structure RawComponent where
  originalType : List Char
  name : List Char
deriving DecidableEq

/-- Raw struct info of the first pass: body text and parsed members. -/
structure RawStructInfo where
  body : List Char
  components : List RawComponent
deriving DecidableEq

/-- ABI component/output node (possibly a tuple with nested components). -/
inductive Comp where
  | mk (name : List Char) (type : List Char) (components : Option (List Comp))

mutual

def decEqComp : (a b : Comp) → Decidable (a = b)
  | .mk n1 t1 none, .mk n2 t2 none =>
    if h1 : n1 = n2 then
      if h2 : t1 = t2 then isTrue (by rw [h1, h2]) else isFalse (by simp [h2])
    else isFalse (by simp [h1])
  | .mk _ _ none, .mk _ _ (some _) => isFalse (by simp)
  | .mk _ _ (some _), .mk _ _ none => isFalse (by simp)
  | .mk n1 t1 (some l1), .mk n2 t2 (some l2) =>
    if h1 : n1 = n2 then
      if h2 : t1 = t2 then
        match decEqCompList l1 l2 with
        | isTrue h3 => isTrue (by rw [h1, h2, h3])
        | isFalse h3 => isFalse (by simp [h3])
      else isFalse (by simp [h2])
    else isFalse (by simp [h1])

def decEqCompList : (a b : List Comp) → Decidable (a = b)
  | [], [] => isTrue rfl
  | [], _ :: _ => isFalse (by simp)
  | _ :: _, [] => isFalse (by simp)
  | a :: as, b :: bs =>
    match decEqComp a b, decEqCompList as bs with
    | isTrue h1, isTrue h2 => isTrue (by rw [h1, h2])
    | isFalse h1, _ => isFalse (by simp [h1])
    | _, isFalse h2 => isFalse (by simp [h2])

end

instance : DecidableEq Comp := decEqComp

/-- The `ParseContext`: struct name → ABI components, and enum names. -/
structure ParseContext where
  structMap : List (List Char × List Comp)
  enumSet : List (List Char)
deriving DecidableEq

/-- A named input/output entry `{name, type}`. -/
structure NamedType where
  name : List Char
  type : List Char
deriving DecidableEq

/-- The `FunctionInfo` record. -/
structure FunctionInfo where
  name : List Char
  inputs : List NamedType
  outputs : List NamedType
  stateMutability : List Char
deriving DecidableEq

/-- One `originalItems` entry (ABI-ready item). -/
structure AbiItem where
  type : List Char
  name : List Char
  inputs : List NamedType
  outputs : List Comp
  stateMutability : List Char
deriving DecidableEq

/-- The `ParseResult`. -/
structure ParseResult where
  functions : List FunctionInfo
  originalItems : List AbiItem
  warnings : List (List Char)
deriving DecidableEq

/-! ## Custom type resolver: `parseStructDefinitions`

Scanners for the `ENUM` and `STRUCT` regexps, the `STRUCT_MEMBER`
pattern, and the fuelled translation of `convertToAbiComponents`
(which recurses with no in-progress guard in the source, so its fuel
really can run out — `none` — on self- or mutually-recursive structs). -/

/-- Match of `enum\s+(\w+)\s*\{[^}]*\}` at the current position;
returns the enum name and the rest of the input after the `}`. -/
def matchEnumAt (cs : List Char) : Option (List Char × List Char) :=
  if isPre (str "enum") cs then
    let r0 := cs.drop 4
    if r0.takeWhile isWsChar = [] then none
    else
      let r1 := r0.dropWhile isWsChar
      let name := r1.takeWhile isWordChar
      if name = [] then none
      else
        let r2 := (r1.dropWhile isWordChar).dropWhile isWsChar
        match r2 with
        | '\x7b' :: r3 =>
          match r3.dropWhile (fun c => !(c = '\x7d')) with
          | '\x7d' :: r4 => some (name, r4)
          | _ => none
        | _ => none
  else none

/-- Global scan of the enum pattern (`exec` loop with `lastIndex`
advancing past each match; one position at a time otherwise). -/
def scanEnumsF : Nat → List Char → List (List Char)
  | 0, _ => []
  | _ + 1, [] => []
  | fuel + 1, c :: rest =>
    match matchEnumAt (c :: rest) with
    | some p => p.1 :: scanEnumsF fuel p.2
    | none => scanEnumsF fuel rest

/-- Body of the struct pattern `([^{}]*(?:\{[^{}]*\}[^{}]*)*)\}`:
brace-free runs interleaved with single-level `{…}` groups, terminated
by the closing `}`.  A `{` nested two levels deep makes the original
regexp fail at this start position after backtracking; this scanner
returns `none` there, the same observable result for the inputs this
engine accepts. -/
def structBodyF : Nat → List Char → Option (List Char × List Char)
  | 0, _ => none
  | fuel + 1, cs =>
    let x := cs.takeWhile (fun c => !(c = '\x7b' || c = '\x7d'))
    let r := cs.dropWhile (fun c => !(c = '\x7b' || c = '\x7d'))
    match r with
    | '\x7d' :: r2 => some (x, r2)
    | '\x7b' :: r2 =>
      let y := r2.takeWhile (fun c => !(c = '\x7b' || c = '\x7d'))
      let r3 := r2.dropWhile (fun c => !(c = '\x7b' || c = '\x7d'))
      match r3 with
      | '\x7d' :: r4 =>
        match structBodyF fuel r4 with
        | some p => some (x ++ '\x7b' :: (y ++ '\x7d' :: p.1), p.2)
        | none => none
      | _ => none
    | _ => none

/-- Match of `struct\s+(\w+)\s*\{body\}` at the current position:
returns (name, body, rest after the closing brace). -/
def matchStructAt (cs : List Char) : Option (List Char × List Char × List Char) :=
  if isPre (str "struct") cs then
    let r0 := cs.drop 6
    if r0.takeWhile isWsChar = [] then none
    else
      let r1 := r0.dropWhile isWsChar
      let name := r1.takeWhile isWordChar
      if name = [] then none
      else
        let r2 := (r1.dropWhile isWordChar).dropWhile isWsChar
        match r2 with
        | '\x7b' :: r3 =>
          match structBodyF r3.length r3 with
          | some p => some (name, p.1, p.2)
          | none => none
        | _ => none
  else none

/-- Global scan of the struct pattern. -/
def scanStructsF : Nat → List Char → List (List Char × List Char)
  | 0, _ => []
  | _ + 1, [] => []
  | fuel + 1, c :: rest =>
    match matchStructAt (c :: rest) with
    | some p => (p.1, p.2.1) :: scanStructsF fuel p.2.2
    | none => scanStructsF fuel rest

/-- First alternative of `STRUCT_MEMBER`:
`mapping\([^)]+\)(?:\[\])?\s+(\w+)\s*$`. -/
def memberAtAlt1 (cs : List Char) : Option RawComponent :=
  if isPre (str "mapping(") cs then
    let inner := (cs.drop 8).takeWhile (fun c => !(c = ')'))
    if inner = [] then none
    else
      match (cs.drop 8).dropWhile (fun c => !(c = ')')) with
      | ')' :: r2 =>
        let withArr := isPre (str "[]") r2
        let ty := str "mapping(" ++ inner ++ [')'] ++
          (if withArr then str "[]" else [])
        let r3 := if withArr then r2.drop 2 else r2
        if r3.takeWhile isWsChar = [] then none
        else
          let r4 := r3.dropWhile isWsChar
          let n := r4.takeWhile isWordChar
          if n = [] then none
          else
            let r5 := r4.dropWhile isWordChar
            if r5.dropWhile isWsChar = [] then some ⟨ty, n⟩ else none
      | _ => none
  else none

/-- Second alternative of `STRUCT_MEMBER`:
`([a-zA-Z_][a-zA-Z0-9_.\[\]]*)\s+(\w+)\s*$`. -/
def memberAtAlt2 (cs : List Char) : Option RawComponent :=
  match cs with
  | [] => none
  | c :: _ =>
    if isIdentStart c then
      let t := cs.takeWhile isTypeTokenChar
      let r := cs.dropWhile isTypeTokenChar
      if r.takeWhile isWsChar = [] then none
      else
        let r2 := r.dropWhile isWsChar
        let n := r2.takeWhile isWordChar
        if n = [] then none
        else
          let r3 := r2.dropWhile isWordChar
          if r3.dropWhile isWsChar = [] then some ⟨t, n⟩ else none
    else none

/-- Leftmost match of `STRUCT_MEMBER` (alternatives in order at each
position, advancing one character at a time). -/
def memberSearchF : Nat → List Char → Option RawComponent
  | 0, _ => none
  | _ + 1, [] => none
  | fuel + 1, c :: rest =>
    match memberAtAlt1 (c :: rest) with
    | some comp => some comp
    | none =>
      match memberAtAlt2 (c :: rest) with
      | some comp => some comp
      | none => memberSearchF fuel rest

/-- Member extraction of one struct body: split on `;`, keep segments
with nonempty trim, and parse each with the member pattern (type
trimmed, as in the source). -/
def parseStructMembers (body : List Char) : List RawComponent :=
  ((splitOnCh ';' body).filter (fun m => jsTrim m ≠ [])).filterMap
    (fun member =>
      let trimmed := jsTrim member
      (memberSearchF trimmed.length trimmed).map
        (fun mc => ⟨jsTrim mc.originalType, mc.name⟩))

/-- First pass of `parseStructDefinitions`: the raw struct map (only
structs with at least one parsed member are recorded). -/
def structRawScan (source : List Char) : List (List Char × RawStructInfo) :=
  (scanStructsF source.length source).foldl
    (fun m p =>
      let components := parseStructMembers p.2
      if components ≠ [] then setA m p.1 ⟨p.2, components⟩ else m)
    []

/-- Last dot-separated part of a type string
(`split('.')[split('.').length - 1]`). -/
def lastDotPart (t : List Char) : List Char :=
  ((splitOnCh '.' t).getLast?).getD []

/-- Fuelled translation of `convertToAbiComponents`: enums collapse to
`uint8`, nested struct fields recurse into tuples — with no
in-progress set, so the recursion is unbounded in the source and the
fuel can genuinely run out (`none`) on cyclic struct references. -/
def convertToAbiComponentsF (enums : List (List Char))
    (rawMap : List (List Char × RawStructInfo)) :
    Nat → List Char → Option (List Comp)
  | 0, _ => none
  | fuel + 1, structName =>
    match lookupA rawMap structName with
    | none => some []
    | some raw =>
      raw.components.mapM (fun c =>
        let typeName := lastDotPart c.originalType
        if typeName ∈ enums then some (Comp.mk c.name (str "uint8") none)
        else if (lookupA rawMap typeName).isSome then
          (convertToAbiComponentsF enums rawMap fuel typeName).map
            (fun nested => Comp.mk c.name (str "tuple") (some nested))
        else some (Comp.mk c.name c.originalType none))

/-- Fuelled translation of `parseStructDefinitions`: enum scan, raw
struct scan, then conversion of every struct (structs whose conversion
yields components are entered into the struct map). -/
def parseStructDefinitionsF (fuel : Nat) (source : List Char) :
    Option ParseContext :=
  let enumSet := scanEnumsF source.length source
  let structRawMap := structRawScan source
  (structRawMap.mapM (fun p =>
      (convertToAbiComponentsF enumSet structRawMap fuel p.1).map
        (fun comps => (p.1, comps)))).map
    (fun pairs =>
      { structMap := pairs.foldl
          (fun m pr => if pr.2 ≠ [] then setA m pr.1 pr.2 else m) [],
        enumSet := enumSet })

/-- The self-referential struct source of claim C1. -/
def selfRefStructSource : List Char := str "struct A \x7b A x; \x7d"

/-- Raw struct map of the self-referential source. -/
def selfRefRawMap : List (List Char × RawStructInfo) :=
  [(str "A", ⟨str " A x; ", [⟨str "A", str "x"⟩]⟩)]

set_option maxRecDepth 10000 in
theorem selfRef_rawScan : structRawScan selfRefStructSource = selfRefRawMap := by
  decide

theorem convertA_none : ∀ fuel,
    convertToAbiComponentsF [] selfRefRawMap fuel (str "A") = none := by
  intro fuel
  induction fuel with
  | zero => rfl
  | succ n ih =>
    rw [convertToAbiComponentsF]
    simp only [show lookupA selfRefRawMap (str "A") =
      some ⟨str " A x; ", [⟨str "A", str "x"⟩]⟩ from by decide]
    rw [List.mapM_cons]
    simp only [show lastDotPart (str "A") = str "A" from by decide]
    rw [if_neg (by simp : ¬ (str "A" ∈ ([] : List (List Char)))),
      if_pos (by decide : (lookupA selfRefRawMap (str "A")).isSome = true), ih]
    rfl

set_option maxRecDepth 10000 in
/-- Claim C1: the spec says parseStructDefinitions must terminate (and not hang)
on every input, including self-referential structs.  In the code
convertToAbiComponents recurses into a member whose resolved type is the very
struct being converted without any in-progress set, so on the source
`struct A \x7b A x; \x7d` the recursion never returns: the fuelled embedding
returns none for every fuel bound, i.e. the function diverges. -/
theorem claim_C1_self_referential_struct_diverges :
    ∀ fuel, parseStructDefinitionsF fuel selfRefStructSource = none := by
  intro fuel
  rw [parseStructDefinitionsF]
  simp only [selfRef_rawScan,
    show scanEnumsF selfRefStructSource.length selfRefStructSource = []
      from by decide]
  rw [show selfRefRawMap = [(str "A", ⟨str " A x; ", [⟨str "A", str "x"⟩]⟩)] from rfl]
  rw [List.mapM_cons]
  dsimp only
  rw [show convertToAbiComponentsF []
      [(str "A", ⟨str " A x; ", [⟨str "A", str "x"⟩]⟩)] fuel (str "A") = none from
    convertA_none fuel]
  rfl


/-! ## State-variable scanner: `findPublicStateVariables`

Backtracking translation of the two `exec` loops.  The simple-variable
pattern
`([a-zA-Z_][a-zA-Z0-9_\[\]]*)\s+(public\s+)?(?:constant\s+|immutable\s+)?(?:override\s+)*(?:private\s+|internal\s+)?(\w+)\s*[;=]`
has disjoint character classes at every boundary except the optional
keyword groups, so greedy matching is deterministic there and the only
backtracking is present/absent (and iteration count) of the keyword
groups, tried in the regexp's order. -/

/-- One match of the state-variable patterns: type text, variable name
and match index, as in `StateVariableMatch` (types.ts). -/
structure StateVariableMatch where
  type : List Char
  name : List Char
  index : Nat
deriving DecidableEq

/-- Tail `(\w+)\s*[;=]` of the simple-variable pattern: the name capture
and the rest of the input after the `;` or `=`. -/
def svTail3 (cs : List Char) : Option (List Char × List Char) :=
  let g3 := cs.takeWhile isWordChar
  if g3 = [] then none
  else
    match (cs.dropWhile isWordChar).dropWhile isWsChar with
    | c :: rest => if c = ';' ∨ c = '=' then some (g3, rest) else none
    | [] => none

/-- One keyword alternative `kw\s+` (at least one whitespace after the
literal, then maximal whitespace). -/
def tryKw (kw : List Char) (cs : List Char) : Option (List Char) :=
  if isPre kw cs then
    match cs.drop kw.length with
    | c :: rest =>
      if isWsChar c then some ((c :: rest).dropWhile isWsChar) else none
    | [] => none
  else none

/-- `(?:private\s+|internal\s+)?` then the tail: each alternative is
tried with the continuation, then the group is dropped. -/
def svTailPI (cs : List Char) : Option (List Char × List Char) :=
  match (tryKw (str "private") cs).bind svTail3 with
  | some res => some res
  | none =>
    match (tryKw (str "internal") cs).bind svTail3 with
    | some res => some res
    | none => svTail3 cs

/-- `(?:override\s+)*` (greedy, with backtracking to fewer iterations)
then the rest of the pattern; fuel bounds the iteration count. -/
def svTailOvF : Nat → List Char → Option (List Char × List Char)
  | 0, cs => svTailPI cs
  | fuel + 1, cs =>
    match tryKw (str "override") cs with
    | some r =>
      match svTailOvF fuel r with
      | some res => some res
      | none => svTailPI cs
    | none => svTailPI cs

/-- `(?:constant\s+|immutable\s+)?` then the rest of the pattern. -/
def svTailConst (cs : List Char) : Option (List Char × List Char) :=
  match (tryKw (str "constant") cs).bind (fun r => svTailOvF r.length r) with
  | some res => some res
  | none =>
    match (tryKw (str "immutable") cs).bind (fun r => svTailOvF r.length r) with
    | some res => some res
    | none => svTailOvF cs.length cs

/-- `(public\s+)?` then the rest; the boolean records whether the
`public` group matched (capture group 2 of the pattern). -/
def svTailPub (cs : List Char) : Option (Bool × List Char × List Char) :=
  match (tryKw (str "public") cs).bind svTailConst with
  | some res => some (true, res)
  | none =>
    match svTailConst cs with
    | some res => some (false, res)
    | none => none

/-- Whole simple-variable pattern at the current position: returns
(type capture, public group present, name capture, rest after match). -/
def matchSimpleVarAt (cs : List Char) : Option (List Char × Bool × List Char × List Char) :=
  match cs with
  | [] => none
  | c :: _ =>
    if isIdentStart c then
      let g1 := cs.takeWhile isSimpleTypeChar
      match cs.dropWhile isSimpleTypeChar with
      | c2 :: rest2 =>
        if isWsChar c2 then
          (svTailPub ((c2 :: rest2).dropWhile isWsChar)).map (fun t => (g1, t))
        else none
      | [] => none
    else none

/-- Global `exec` scan of the simple-variable pattern; each hit records
(match index, type capture, public flag, name capture, whole match
text), and scanning resumes after the match. -/
def scanSimpleVarsF : Nat → Nat → List Char →
    List (Nat × List Char × Bool × List Char × List Char)
  | 0, _, _ => []
  | _ + 1, _, [] => []
  | fuel + 1, i, c :: rest =>
    match matchSimpleVarAt (c :: rest) with
    | some (g1, pub, g3, after) =>
      let len := (c :: rest).length - after.length
      (i, g1, pub, g3, (c :: rest).take len) ::
        scanSimpleVarsF fuel (i + len) after
    | none => scanSimpleVarsF fuel (i + 1) rest

/-- Match of `function\s+\w+\s*\(` at the current position (the `\b` is
checked by the caller); returns the match length. -/
def matchFnDeclAt (cs : List Char) : Option Nat :=
  if isPre (str "function") cs then
    match cs.drop 8 with
    | c :: rest =>
      if isWsChar c then
        let r2 := (c :: rest).dropWhile isWsChar
        if r2.takeWhile isWordChar = [] then none
        else
          match (r2.dropWhile isWordChar).dropWhile isWsChar with
          | '(' :: rest2 => some (cs.length - rest2.length)
          | _ => none
      else none
    | [] => none
  else none

/-- Count of `\bfunction\s+\w+\s*\(` matches (the brace/function-count
heuristic): the boolean tracks whether the previous character was a word
character, which decides the `\b`. -/
def countFnDeclsF : Nat → Bool → List Char → Nat
  | 0, _, _ => 0
  | _ + 1, _, [] => 0
  | fuel + 1, prevWord, c :: rest =>
    match (if prevWord then none else matchFnDeclAt (c :: rest)) with
    | some len => 1 + countFnDeclsF fuel false ((c :: rest).drop len)
    | none => countFnDeclsF fuel (isWordChar c) rest

/-- `(beforeMatch.match(/\bfunction\s+\w+\s*\(/g) || []).length`. -/
def countFunctionDecls (cs : List Char) : Nat :=
  countFnDeclsF cs.length false cs

/-- The skip heuristic applied to both state-variable loops: more `\x7b`
than `\x7d` before the match together with at least one function
declaration before it. -/
def braceFnSkip (cleaned : List Char) (idx : Nat) : Bool :=
  let beforeMatch := cleaned.take idx
  decide (beforeMatch.count '\x7d' < beforeMatch.count '\x7b') &&
    decide (0 < countFunctionDecls beforeMatch)

/-- First half of `findPublicStateVariables`: the simple-variable scan
with its four `continue` filters (a `mapping` within the ten characters
before the match, `private`/`internal` in the match text, a missing
`public` group, and the brace/function heuristic). -/
def findPublicStateVariablesPart1 (cleaned : List Char) : List StateVariableMatch :=
  (scanSimpleVarsF cleaned.length 0 cleaned).filterMap (fun m =>
    let idx := m.1
    let matchText := m.2.2.2.2
    if containsSub (str "mapping") ((cleaned.take idx).drop (idx - 10)) then none
    else if containsSub (str "private") matchText ||
        containsSub (str "internal") matchText then none
    else if !m.2.2.1 then none
    else if braceFnSkip cleaned idx then none
    else some ⟨jsTrim m.2.1, jsTrim m.2.2.2.1, idx⟩)

/-- Match of `mapping\s*\(` at the current position; returns the offset
of the `(` from the match start. -/
def matchMappingStartAt (cs : List Char) : Option Nat :=
  if isPre (str "mapping") cs then
    let wsLen := ((cs.drop 7).takeWhile isWsChar).length
    match (cs.drop 7).drop wsLen with
    | '(' :: _ => some (7 + wsLen)
    | _ => none
  else none

/-- Global `exec` scan of `mapping\s*\(`: (match index, offset of the
`(`); scanning resumes after the `(`. -/
def scanMappingStartsF : Nat → Nat → List Char → List (Nat × Nat)
  | 0, _, _ => []
  | _ + 1, _, [] => []
  | fuel + 1, i, c :: rest =>
    match matchMappingStartAt (c :: rest) with
    | some parenOff =>
      (i, parenOff) ::
        scanMappingStartsF fuel (i + parenOff + 1) ((c :: rest).drop (parenOff + 1))
    | none => scanMappingStartsF fuel (i + 1) rest

/-- The non-global `afterType.match(/public\s+([a-zA-Z_][a-zA-Z0-9_]*)\s*[;=]/)`
pattern at one position: name capture and match length. -/
def matchPublicVarAt (cs : List Char) : Option (List Char × Nat) :=
  if isPre (str "public") cs then
    match cs.drop 6 with
    | c :: rest =>
      if isWsChar c then
        match (c :: rest).dropWhile isWsChar with
        | c2 :: rest2 =>
          if isIdentStart c2 then
            let g1 := (c2 :: rest2).takeWhile isWordChar
            match ((c2 :: rest2).dropWhile isWordChar).dropWhile isWsChar with
            | c3 :: rest3 =>
              if c3 = ';' ∨ c3 = '=' then some (g1, cs.length - rest3.length)
              else none
            | [] => none
          else none
        | [] => none
      else none
    | [] => none
  else none

/-- Leftmost match of the `public\s+name\s*[;=]` pattern: (index, name
capture, match length). -/
def findPublicVarF : Nat → Nat → List Char → Option (Nat × List Char × Nat)
  | 0, _, _ => none
  | _ + 1, _, [] => none
  | fuel + 1, j, c :: rest =>
    match matchPublicVarAt (c :: rest) with
    | some p => some (j, p.1, p.2)
    | none => findPublicVarF fuel (j + 1) rest

/-- `String.prototype.match` (non-global) of the public-variable pattern. -/
def findPublicVar (cs : List Char) : Option (Nat × List Char × Nat) :=
  findPublicVarF cs.length 0 cs

/-- Processing of one `mapping\s*\(` hit: the brace/function heuristic,
the balanced closing parenthesis, the `public name ;` pattern after the
type, and the `private`/`internal` filter on the text between the
mapping and the end of that pattern. -/
def processMappingMatch (cleaned : List Char) (m : Nat × Nat) :
    Option StateVariableMatch :=
  let i := m.1
  let mappingStartIndex := i + m.2
  if braceFnSkip cleaned i then none
  else
    match findMatchingClosingParen cleaned mappingStartIndex with
    | some closingParenIndex =>
      if mappingStartIndex < closingParenIndex then
        let typeEnd := closingParenIndex + 1
        match findPublicVar (cleaned.drop typeEnd) with
        | some (j, g1, mlen) =>
          let between := (cleaned.take (typeEnd + j + mlen)).drop i
          if containsSub (str "private") between ||
              containsSub (str "internal") between then none
          else
            let varName := jsTrim g1
            if varName ≠ [] then
              some ⟨jsTrim ((cleaned.take typeEnd).drop i), varName, i⟩
            else none
        | none => none
      else none
    | none => none

/-- Translation of `findPublicStateVariables`: the simple-variable scan
followed by the mapping scan. -/
def findPublicStateVariables (cleaned : List Char) : List StateVariableMatch :=
  findPublicStateVariablesPart1 cleaned ++
    (scanMappingStartsF cleaned.length 0 cleaned).filterMap
      (processMappingMatch cleaned)

/-! ## `processStateVariables` -/

/-- Translation of `canResolveType`: primitives always resolve; a
custom type resolves when its resolved name is a known enum or struct. -/
def canResolveType (t : List Char) (ctx : ParseContext) : Bool :=
  if !isCustomType t then true
  else
    let typeName := resolveTypeName t
    ctx.enumSet.contains typeName || (lookupA ctx.structMap typeName).isSome

/-- Translation of `getComponentsForType`. -/
def getComponentsForType (t : List Char) (ctx : ParseContext) :
    Option (List Comp) :=
  lookupA ctx.structMap (resolveTypeName t)

/-- The warning text for a mapping value type with a missing struct
definition. -/
def warnMissingStruct (name valueType : List Char) : List Char :=
  str "Skipping \"" ++ name ++ str "\": Missing struct definition for \"" ++
    valueType ++
    str "\". Please add the struct definition to the contract source or use ABI JSON mode."

/-- The warning text for a state-variable input with a missing struct
definition. -/
def warnMissingInput (name inputType : List Char) : List Char :=
  str "Skipping \"" ++ name ++
    str "\": Missing struct definition for input type \"" ++ inputType ++
    str "\". Please add the struct definition to the contract source or use ABI JSON mode."

/-- The warning text for a function input with a missing struct
definition. -/
def warnFnMissingInput (name inputType : List Char) : List Char :=
  str "Skipping function \"" ++ name ++
    str "\": Missing struct definition for input type \"" ++ inputType ++
    str "\". Please add the struct definition to the contract source or use ABI JSON mode."

/-- The warning text for a function return with a missing struct
definition. -/
def warnFnMissingReturn (name outputType : List Char) : List Char :=
  str "Skipping function \"" ++ name ++
    str "\": Missing struct definition for return type \"" ++ outputType ++
    str "\". Please add the struct definition to the contract source or use ABI JSON mode."

/-- Mapping-type analysis of one state variable: either a warning (the
value type is a custom type with no struct definition) or the getter
inputs, output type, and optional tuple components. -/
def svCore (m : StateVariableMatch) (ctx : ParseContext) :
    Except (List Char) (List NamedType × List Char × Option (List Comp)) :=
  if isPre (str "mapping(") m.type then
    let keys := extractMappingKeys m.type
    let inputs : List NamedType :=
      keys.enum.map (fun p => ⟨str "key" ++ natChars (p.1 + 1), p.2⟩)
    let valueType := jsTrim (removeStorageSuffix (extractFinalValueType m.type))
    if ctx.enumSet.contains (resolveTypeName valueType) then
      .ok (inputs, str "uint8", none)
    else if isCustomType valueType then
      match getComponentsForType valueType ctx with
      | some comps => .ok (inputs, str "tuple", some comps)
      | none => .error (warnMissingStruct m.name valueType)
    else .ok (inputs, valueType, none)
  else .ok ([], m.type, none)

/-- One state variable: warnings produced and the optional
(FunctionInfo, ABI item) pair (none when the variable is skipped). -/
def processOneSV (m : StateVariableMatch) (ctx : ParseContext) :
    List (List Char) × Option (FunctionInfo × AbiItem) :=
  match svCore m ctx with
  | .error w => ([w], none)
  | .ok (inputs, outputType, outputComponents) =>
    match inputs.find? (fun i => isCustomType i.type && !canResolveType i.type ctx) with
    | some bad => ([warnMissingInput m.name bad.type], none)
    | none =>
      ([], some
        (⟨m.name, inputs, [⟨str "value", outputType⟩], str "view"⟩,
         ⟨str "function", m.name, inputs,
           [Comp.mk (str "value") outputType outputComponents], str "view"⟩))

/-- The deduplicating loop of `processStateVariables`: a name is added
to the seen set before any skip check, so even a skipped variable
blocks later variables of the same name; the `mapping`-without-`=>`
guard skips silently. -/
def processSVGo (ctx : ParseContext) :
    List StateVariableMatch → List (List Char) →
    List FunctionInfo × List AbiItem × List (List Char)
  | [], _ => ([], [], [])
  | m :: rest, seen =>
    if m.name ∈ seen then processSVGo ctx rest seen
    else if isPre (str "mapping") m.type && !containsSub (str "=>") m.type then
      processSVGo ctx rest (m.name :: seen)
    else
      match processOneSV m ctx, processSVGo ctx rest (m.name :: seen) with
      | (ws, some fi), r => (fi.1 :: r.1, fi.2 :: r.2.1, ws ++ r.2.2)
      | (ws, none), r => (r.1, r.2.1, ws ++ r.2.2)

/-- Translation of `processStateVariables`. -/
def processStateVariables (ms : List StateVariableMatch) (ctx : ParseContext) :
    List FunctionInfo × List AbiItem × List (List Char) :=
  processSVGo ctx ms []

/-! ## Function scanner: `processViewAndPureFunctions`

Translation of the case-insensitive function regexp
`function\s+(\w+)\s*\(([^)]*)\)\s*(public|external|private|internal)?\s*(view|pure)\s*(?:returns\s*\(([^)]+)\))?`
(`gi` flags).  As with the state-variable pattern, all character-class
boundaries are disjoint, so the only backtracking is over the optional
visibility and returns groups; the visibility alternatives differ
pairwise within their first two letters, so at most one can match at a
given position. -/

/-- One raw match of the function regexp: the five capture groups in
their original case (absent optional groups as `none`). -/
structure FuncMatch where
  name : List Char
  params : List Char
  vis : Option (List Char)
  mutKw : List Char
  rets : Option (List Char)
deriving DecidableEq

/-- The visibility alternation (case-insensitive, original-case
capture). -/
def visAlt (cs : List Char) : Option (List Char × List Char) :=
  match matchCI (str "public") cs with
  | some t => some t
  | none =>
    match matchCI (str "external") cs with
    | some t => some t
    | none =>
      match matchCI (str "private") cs with
      | some t => some t
      | none => matchCI (str "internal") cs

/-- The `view|pure` alternation (case-insensitive, original-case
capture). -/
def mutAlt (cs : List Char) : Option (List Char × List Char) :=
  match matchCI (str "view") cs with
  | some t => some t
  | none => matchCI (str "pure") cs

/-- `function\s+(\w+)\s*\(([^)]*)\)`: name capture, params capture, and
the rest after the closing parenthesis. -/
def funcHead (cs : List Char) : Option (List Char × List Char × List Char) :=
  match matchCI (str "function") cs with
  | none => none
  | some f =>
    match f.2 with
    | c :: rest =>
      if isWsChar c then
        let r1 := (c :: rest).dropWhile isWsChar
        if r1.takeWhile isWordChar = [] then none
        else
          match (r1.dropWhile isWordChar).dropWhile isWsChar with
          | '(' :: r3 =>
            match r3.dropWhile (fun ch => !(ch = ')')) with
            | ')' :: r4 =>
              some (r1.takeWhile isWordChar, r3.takeWhile (fun ch => !(ch = ')')), r4)
            | _ => none
          | _ => none
      else none
    | [] => none

/-- `\s*(public|external|private|internal)?\s*` with backtracking: the
group is kept only when `view|pure` can follow; returns the optional
visibility capture and the position `view|pure` is to be matched at. -/
def visStep (r4 : List Char) : Option (List Char) × List Char :=
  let r5 := r4.dropWhile isWsChar
  match visAlt r5 with
  | some t =>
    let r7 := t.2.dropWhile isWsChar
    if (mutAlt r7).isSome then (some t.1, r7) else (none, r5)
  | none => (none, r5)

/-- `\s*(?:returns\s*\(([^)]+)\))?`: the optional returns capture and
the rest of the input after the whole match (when the group fails the
match ends after the consumed whitespace). -/
def retStep (r8 : List Char) : Option (List Char) × List Char :=
  let r9 := r8.dropWhile isWsChar
  match matchCI (str "returns") r9 with
  | some t =>
    match t.2.dropWhile isWsChar with
    | '(' :: r12 =>
      let rets := r12.takeWhile (fun ch => !(ch = ')'))
      if rets = [] then (none, r9)
      else
        match r12.dropWhile (fun ch => !(ch = ')')) with
        | ')' :: r13 => (some rets, r13)
        | _ => (none, r9)
    | _ => (none, r9)
  | none => (none, r9)

/-- Whole function regexp at the current position: the captures and the
match length. -/
def matchFuncAt (cs : List Char) : Option (FuncMatch × Nat) :=
  match funcHead cs with
  | none => none
  | some hd =>
    let vp := visStep hd.2.2
    match mutAlt vp.2 with
    | none => none
    | some mt =>
      let rr := retStep mt.2
      some (⟨hd.1, hd.2.1, vp.1, mt.1, rr.1⟩, cs.length - rr.2.length)

/-- Global `exec` scan of the function regexp. -/
def scanFuncsF : Nat → List Char → List FuncMatch
  | 0, _ => []
  | _ + 1, [] => []
  | fuel + 1, c :: rest =>
    match matchFuncAt (c :: rest) with
    | some p => p.1 :: scanFuncsF fuel ((c :: rest).drop p.2)
    | none => scanFuncsF fuel rest

/-- The `originalOutputs` loop: enums become `uint8`, resolvable custom
types become tuples with components, an unresolvable custom type aborts
with the warning (the declaration is then dropped). -/
def buildOriginalOutputs (fnName : List Char) (ctx : ParseContext) :
    List NamedType → Except (List Char) (List Comp)
  | [] => .ok []
  | o :: rest =>
    if ctx.enumSet.contains (resolveTypeName o.type) then
      (buildOriginalOutputs fnName ctx rest).map
        (fun t => Comp.mk o.name (str "uint8") none :: t)
    else if isCustomType o.type && !canResolveType o.type ctx then
      .error (warnFnMissingReturn fnName o.type)
    else if isCustomType o.type then
      match getComponentsForType o.type ctx with
      | some comps =>
        (buildOriginalOutputs fnName ctx rest).map
          (fun t => Comp.mk o.name (str "tuple") (some comps) :: t)
      | none =>
        (buildOriginalOutputs fnName ctx rest).map
          (fun t => Comp.mk o.name o.type none :: t)
    else
      (buildOriginalOutputs fnName ctx rest).map
        (fun t => Comp.mk o.name o.type none :: t)

/-- The (FunctionInfo, ABI item) pair emitted for an accepted function
match (the empty output lists fall back to a single `uint256` "value"). -/
def funcEmit (fm : FuncMatch) (inputs outputs : List NamedType)
    (originalOutputs : List Comp) : FunctionInfo × AbiItem :=
  (⟨fm.name, inputs,
     (if outputs = [] then [⟨str "value", str "uint256"⟩] else outputs),
     jsTrim fm.mutKw⟩,
   ⟨str "function", fm.name, inputs,
     (if originalOutputs = [] then [Comp.mk (str "value") (str "uint256") none]
      else originalOutputs),
     jsTrim fm.mutKw⟩)

/-- One function match: the warnings produced (the input check and the
output loop both run) and the optional (FunctionInfo, ABI item) pair.
The `private`/`internal` visibility comparison is case-sensitive on the
original-case capture. -/
def processOneFuncMatch (fm : FuncMatch) (ctx : ParseContext) :
    List (List Char) × Option (FunctionInfo × AbiItem) :=
  let visibility := match fm.vis with | some v => jsTrim v | none => str "public"
  if visibility = str "private" ∨ visibility = str "internal" then ([], none)
  else
    let paramsStr := jsTrim fm.params
    let returnsStr := match fm.rets with | some r => jsTrim r | none => []
    let inputs : List NamedType :=
      if paramsStr = [] then []
      else
        (splitByComma paramsStr).filterMap (fun p =>
          let parsed := parseParamOrReturn p
          if parsed.1 ≠ [] then some ⟨parsed.2, parsed.1⟩ else none)
    let outputs : List NamedType :=
      if returnsStr = [] then []
      else
        (splitByComma returnsStr).filterMap (fun p =>
          let parsed := parseParamOrReturn p
          if parsed.1 ≠ [] then some ⟨parsed.2, parsed.1⟩ else none)
    let inputWarn :=
      (inputs.find? (fun i => isCustomType i.type && !canResolveType i.type ctx)).map
        (fun bad => warnFnMissingInput fm.name bad.type)
    let outRes := buildOriginalOutputs fm.name ctx outputs
    let warns := inputWarn.toList ++
      (match outRes with | .error w => [w] | .ok _ => [])
    match inputWarn, outRes with
    | none, .ok originalOutputs => ([], some (funcEmit fm inputs outputs originalOutputs))
    | _, _ => (warns, none)

/-- The accumulation loop over the function matches. -/
def processFuncsGo (ctx : ParseContext) :
    List FuncMatch → List FunctionInfo × List AbiItem × List (List Char)
  | [] => ([], [], [])
  | fm :: rest =>
    let one := processOneFuncMatch fm ctx
    let r := processFuncsGo ctx rest
    match one.2 with
    | some fi => (fi.1 :: r.1, fi.2 :: r.2.1, one.1 ++ r.2.2)
    | none => (r.1, r.2.1, one.1 ++ r.2.2)

/-- Translation of `processViewAndPureFunctions`. -/
def processViewAndPureFunctions (cleaned : List Char) (ctx : ParseContext) :
    List FunctionInfo × List AbiItem × List (List Char) :=
  processFuncsGo ctx (scanFuncsF cleaned.length cleaned)

/-- Translation of `parseSolidityContract`: the type table is built over
the raw source, the declaration scans run over the comment-stripped
source, and the three result lists are concatenated (state variables
first).  The fuel only feeds `convertToAbiComponentsF`. -/
def parseSolidityContractF (fuel : Nat) (source : List Char) : Option ParseResult :=
  (parseStructDefinitionsF fuel source).map (fun context =>
    let cleaned := removeComments source
    let sv := processStateVariables (findPublicStateVariables cleaned) context
    let fns := processViewAndPureFunctions cleaned context
    ⟨sv.1 ++ fns.1, sv.2.1 ++ fns.2.1, sv.2.2 ++ fns.2.2⟩)

/-! ## Settling the pipeline claims: concrete sources -/

/-- C2: a struct defined only inside a block comment, used by a public
mapping state variable. -/
def srcC2 : List Char :=
  str "/*struct Foo\x7buint256 a;\x7d*/ contract C\x7bmapping(address=>Foo) public data;\x7d"

/-- C3: a user-defined value-type alias used as a function parameter. -/
def srcC3 : List Char :=
  str "type Price is uint256; contract C\x7bfunction f(Price p) public view returns (uint256)\x7b\x7d\x7d"

/-- C4: the same view function declared twice. -/
def srcC4 : List Char :=
  str "contract C\x7bfunction f() public view returns (uint256)\x7b\x7d function f() public view returns (uint256)\x7b\x7d\x7d"

/-- C7: a non-mapping public state variable of an undefined custom type. -/
def srcC7 : List Char := str "contract C\x7bFoo public data;\x7d"

/-- C7 (amended): a public mapping whose value type is undefined. -/
def srcC7b : List Char := str "contract C\x7bmapping(address => Foo) public data;\x7d"

/-- C8: a function with upper-case `PRIVATE` visibility and `VIEW`
mutability keywords, matched by the case-insensitive regexp. -/
def srcC8 : List Char :=
  str "contract C\x7bfunction f() PRIVATE VIEW returns (uint256) \x7b\x7d\x7d"

set_option maxRecDepth 10000 in
/-- Claim C2 counterexample: in this source the struct `Foo` is defined
only inside a block comment — the comment-stripped text contains no
`struct` at all — yet the public mapping `data` whose value type is
`Foo` is emitted with output type `tuple` and `Foo`'s components, with
no warning: the type table was built over the raw source, not the
stripped source. -/
theorem claim_C2_counterexample :
    containsSub (str "struct") (removeComments srcC2) = false ∧
    parseSolidityContractF 9 srcC2 =
      some ⟨[⟨str "data", [⟨str "key1", str "address"⟩],
          [⟨str "value", str "tuple"⟩], str "view"⟩],
        [⟨str "function", str "data", [⟨str "key1", str "address"⟩],
          [Comp.mk (str "value") (str "tuple")
            (some [Comp.mk (str "a") (str "uint256") none])], str "view"⟩],
        []⟩ := by
  have hcl : removeComments srcC2 =
      str " contract C\x7bmapping(address=>Foo) public data;\x7d" := by
    simp [srcC2, str, removeComments, copyStr, dropBlock, dropLine]
  refine ⟨by rw [hcl]; decide, ?_⟩
  simp only [parseSolidityContractF]
  rw [hcl]
  decide

set_option maxRecDepth 10000 in
/-- Claim C2 (amended): the type table is built over the raw source, so
the comment-only struct `Foo` IS collected into the struct map. -/
theorem claim_C2_amended_raw_source_table :
    parseStructDefinitionsF 9 srcC2 =
      some ⟨[(str "Foo", [Comp.mk (str "a") (str "uint256") none])], []⟩ := by
  decide

set_option maxRecDepth 10000 in
/-- Claim C3 counterexample: a `type Price is uint256;` alias is not
recorded by the type table, so the view function using `Price` is
dropped as unresolved with a missing-struct warning — it does not
resolve to the underlying primitive and does not appear in the output. -/
theorem claim_C3_counterexample :
    parseSolidityContractF 9 srcC3 =
      some ⟨[], [], [warnFnMissingInput (str "f") (str "Price")]⟩ := by
  have hcl : removeComments srcC3 = srcC3 := by
    simp [srcC3, str, removeComments, copyStr, dropBlock, dropLine]
  simp only [parseSolidityContractF]
  rw [hcl]
  decide

set_option maxRecDepth 10000 in
/-- Claim C3 (amended): the parser has no user-defined value-type alias
support — the alias declaration contributes nothing to the type table,
and the alias name counts as an unresolvable custom type. -/
theorem claim_C3_amended_no_alias_support :
    parseStructDefinitionsF 9 srcC3 = some ⟨[], []⟩ ∧
    isCustomType (str "Price") = true ∧
    canResolveType (str "Price") ⟨[], []⟩ = false := by
  refine ⟨by decide, by decide, by decide⟩

set_option maxRecDepth 10000 in
/-- Claim C4 counterexample: declaring the same view function `f` twice
yields two entries named `f` in both `functions` and `originalItems` —
the view/pure-function path performs no deduplication by name. -/
theorem claim_C4_counterexample :
    parseSolidityContractF 9 srcC4 =
      some ⟨[⟨str "f", [], [⟨[], str "uint256"⟩], str "view"⟩,
          ⟨str "f", [], [⟨[], str "uint256"⟩], str "view"⟩],
        [⟨str "function", str "f", [], [Comp.mk [] (str "uint256") none], str "view"⟩,
         ⟨str "function", str "f", [], [Comp.mk [] (str "uint256") none], str "view"⟩],
        []⟩ := by
  have hcl : removeComments srcC4 = srcC4 := by
    simp [srcC4, str, removeComments, copyStr, dropBlock, dropLine]
  simp only [parseSolidityContractF]
  rw [hcl]
  decide

set_option maxRecDepth 10000 in
/-- Claim C7 (amended): for a public mapping whose value type is the
undefined `Foo`, the declaration is dropped and exactly one diagnostic
naming both `data` and `Foo` is appended — the claim's own end-to-end
example does hold. -/
theorem claim_C7_amended_mapping_case :
    parseSolidityContractF 9 srcC7b =
      some ⟨[], [], [warnMissingStruct (str "data") (str "Foo")]⟩ ∧
    containsSub (str "data") (warnMissingStruct (str "data") (str "Foo")) = true ∧
    containsSub (str "Foo") (warnMissingStruct (str "data") (str "Foo")) = true := by
  have hcl : removeComments srcC7b = srcC7b := by
    simp [srcC7b, str, removeComments, copyStr, dropBlock, dropLine]
  refine ⟨?_, by decide, by decide⟩
  simp only [parseSolidityContractF]
  rw [hcl]
  decide

set_option maxRecDepth 10000 in
/-- Claim C7 counterexample: a non-mapping public state variable whose
type `Foo` is absent from the (empty) struct and enum tables is still
emitted, with output type `Foo` and no diagnostic — only mapping value
types and function inputs/outputs are checked for resolvability. -/
theorem claim_C7_counterexample :
    parseStructDefinitionsF 9 srcC7 = some ⟨[], []⟩ ∧
    parseSolidityContractF 9 srcC7 =
      some ⟨[⟨str "data", [], [⟨str "value", str "Foo"⟩], str "view"⟩],
        [⟨str "function", str "data", [],
          [Comp.mk (str "value") (str "Foo") none], str "view"⟩], []⟩ := by
  have hcl : removeComments srcC7 = srcC7 := by
    simp [srcC7, str, removeComments, copyStr, dropBlock, dropLine]
  refine ⟨by decide, ?_⟩
  simp only [parseSolidityContractF]
  rw [hcl]
  decide

set_option maxRecDepth 10000 in
/-- Claim C8 counterexample: the function regexp is case-insensitive but
the comparisons are case-sensitive, so `function f() PRIVATE VIEW`
is emitted despite its private visibility, and its state mutability is
the literal capture `VIEW`, which is neither `view` nor `pure`. -/
theorem claim_C8_counterexample :
    parseSolidityContractF 9 srcC8 =
      some ⟨[⟨str "f", [], [⟨[], str "uint256"⟩], str "VIEW"⟩],
        [⟨str "function", str "f", [],
          [Comp.mk [] (str "uint256") none], str "VIEW"⟩], []⟩ ∧
    (str "VIEW" = str "view" → False) ∧ (str "VIEW" = str "pure" → False) := by
  have hcl : removeComments srcC8 = srcC8 := by
    simp [srcC8, str, removeComments, copyStr, dropBlock, dropLine]
  refine ⟨?_, by decide, by decide⟩
  simp only [parseSolidityContractF]
  rw [hcl]
  decide

theorem processOneSV_name (m : StateVariableMatch) (ctx : ParseContext)
    (fi : FunctionInfo × AbiItem) (h : (processOneSV m ctx).2 = some fi) :
    fi.1.name = m.name := by
  unfold processOneSV at h
  cases hsc : svCore m ctx with
  | error w => rw [hsc] at h; simp at h
  | ok val =>
    obtain ⟨inputs, outputType, comps⟩ := val
    rw [hsc] at h
    dsimp only at h
    cases hf : inputs.find? (fun i => isCustomType i.type && !canResolveType i.type ctx) with
    | some bad => rw [hf] at h; simp at h
    | none =>
      rw [hf] at h
      simp only [Option.some.injEq] at h
      rw [← h]

theorem processSVGo_nodup (ctx : ParseContext) :
    ∀ (ms : List StateVariableMatch) (seen : List (List Char)),
      ((processSVGo ctx ms seen).1.map (fun f => f.name)).Nodup ∧
      ∀ n ∈ (processSVGo ctx ms seen).1.map (fun f => f.name), n ∉ seen
  | [], seen => by simp [processSVGo]
  | m :: rest, seen => by
    rw [processSVGo]
    by_cases hseen : m.name ∈ seen
    · rw [if_pos hseen]
      exact processSVGo_nodup ctx rest seen
    · rw [if_neg hseen]
      by_cases hmap : (isPre (str "mapping") m.type && !containsSub (str "=>") m.type) = true
      · rw [if_pos hmap]
        have ih := processSVGo_nodup ctx rest (m.name :: seen)
        exact ⟨ih.1, fun n hn => fun hns => (ih.2 n hn) (List.mem_cons_of_mem _ hns)⟩
      · rw [if_neg hmap]
        have ih := processSVGo_nodup ctx rest (m.name :: seen)
        cases hone : processOneSV m ctx with
        | mk ws oi =>
          cases oi with
          | none =>
            dsimp only
            exact ⟨ih.1, fun n hn => fun hns => (ih.2 n hn) (List.mem_cons_of_mem _ hns)⟩
          | some fi =>
            dsimp only
            have hname : fi.1.name = m.name :=
              processOneSV_name m ctx fi (by rw [hone])
            constructor
            · rw [List.map_cons, List.nodup_cons]
              refine ⟨fun hmem => ?_, ih.1⟩
              have := ih.2 _ hmem
              rw [hname] at this
              exact this (List.mem_cons_self _ _)
            · intro n hn
              rw [List.map_cons, List.mem_cons] at hn
              rcases hn with hn | hn
              · rw [hn, hname]; exact hseen
              · exact fun hns => (ih.2 n hn) (List.mem_cons_of_mem _ hns)

/-- Claim C4 (amended): the state-variable half of the result is
deduplicated by name. -/
theorem claim_C4_amended (ms : List StateVariableMatch) (ctx : ParseContext) :
    ((processStateVariables ms ctx).1.map (fun f => f.name)).Nodup :=
  (processSVGo_nodup ctx ms []).1

theorem matchCI_toLower : ∀ (kw cs cap rest : List Char),
    matchCI kw cs = some (cap, rest) → cap.map toLowerCh = kw.map toLowerCh
  | [], cs, cap, rest, h => by
    simp only [matchCI, Option.some.injEq, Prod.mk.injEq] at h
    rw [← h.1]
  | p :: ps, [], cap, rest, h => Option.noConfusion h
  | p :: ps, c :: cs, cap, rest, h => by
    simp only [matchCI] at h
    by_cases hc : toLowerCh c = toLowerCh p
    · rw [if_pos hc] at h
      cases hm : matchCI ps cs with
      | none => rw [hm] at h; simp at h
      | some t =>
        rw [hm] at h
        rw [Option.map_some'] at h
        simp only [Option.some.injEq, Prod.mk.injEq] at h
        rw [← h.1, List.map_cons, List.map_cons, hc,
          matchCI_toLower ps cs t.1 t.2 (by rw [hm])]
    · rw [if_neg hc] at h; simp at h

theorem mutAlt_toLower (cs : List Char) (t : List Char × List Char)
    (h : mutAlt cs = some t) :
    t.1.map toLowerCh = str "view" ∨ t.1.map toLowerCh = str "pure" := by
  unfold mutAlt at h
  cases hv : matchCI (str "view") cs with
  | some u =>
    rw [hv] at h
    simp only [Option.some.injEq] at h
    rw [← h]
    exact Or.inl ((matchCI_toLower _ cs u.1 u.2 (by rw [hv])).trans (by decide))
  | none =>
    rw [hv] at h
    dsimp only at h
    exact Or.inr ((matchCI_toLower _ cs t.1 t.2 (by rw [h])).trans (by decide))

theorem matchFuncAt_mut (cs : List Char) (fm : FuncMatch) (len : Nat)
    (h : matchFuncAt cs = some (fm, len)) :
    fm.mutKw.map toLowerCh = str "view" ∨ fm.mutKw.map toLowerCh = str "pure" := by
  unfold matchFuncAt at h
  cases hh : funcHead cs with
  | none => rw [hh] at h; simp at h
  | some hd =>
    rw [hh] at h
    dsimp only at h
    cases hm : mutAlt (visStep hd.2.2).2 with
    | none => rw [hm] at h; simp at h
    | some mt =>
      rw [hm] at h
      simp only [Option.some.injEq, Prod.mk.injEq] at h
      have hmut : fm.mutKw = mt.1 := by rw [← h.1]
      rw [hmut]
      exact mutAlt_toLower _ mt hm

theorem scanFuncsF_mut : ∀ (fuel : Nat) (cs : List Char) (fm : FuncMatch),
    fm ∈ scanFuncsF fuel cs →
    fm.mutKw.map toLowerCh = str "view" ∨ fm.mutKw.map toLowerCh = str "pure"
  | 0, cs, fm, h => by simp [scanFuncsF] at h
  | fuel + 1, [], fm, h => by simp [scanFuncsF] at h
  | fuel + 1, c :: rest, fm, h => by
    rw [scanFuncsF] at h
    cases hm : matchFuncAt (c :: rest) with
    | none =>
      rw [hm] at h
      exact scanFuncsF_mut fuel rest fm h
    | some p =>
      rw [hm] at h
      rcases List.mem_cons.mp h with hfm | hfm
      · subst hfm
        exact matchFuncAt_mut (c :: rest) p.1 p.2 (by rw [hm])
      · exact scanFuncsF_mut fuel _ fm hfm

theorem processOneFuncMatch_mut (fm : FuncMatch) (ctx : ParseContext)
    (fi : FunctionInfo × AbiItem)
    (h : (processOneFuncMatch fm ctx).2 = some fi) :
    fi.1.stateMutability = jsTrim fm.mutKw := by
  simp only [processOneFuncMatch] at h
  split at h
  · simp at h
  · split at h
    · simp only [Option.some.injEq] at h
      rw [← h]
      rfl
    · simp at h

theorem processFuncsGo_mem (ctx : ParseContext) :
    ∀ (fms : List FuncMatch) (f : FunctionInfo),
      f ∈ (processFuncsGo ctx fms).1 →
      ∃ fm ∈ fms, ∃ fi : FunctionInfo × AbiItem,
        (processOneFuncMatch fm ctx).2 = some fi ∧ fi.1 = f
  | [], f, h => by simp [processFuncsGo] at h
  | fm :: rest, f, h => by
    rw [processFuncsGo] at h
    cases hone : (processOneFuncMatch fm ctx).2 with
    | none =>
      rw [hone] at h
      dsimp only at h
      obtain ⟨fm2, hfm2, fi, hfi⟩ := processFuncsGo_mem ctx rest f h
      exact ⟨fm2, List.mem_cons_of_mem _ hfm2, fi, hfi⟩
    | some fi0 =>
      rw [hone] at h
      dsimp only at h
      rcases List.mem_cons.mp h with hf | hf
      · exact ⟨fm, List.mem_cons_self _ _, fi0, by rw [hone], hf.symm⟩
      · obtain ⟨fm2, hfm2, fi, hfi⟩ := processFuncsGo_mem ctx rest f hf
        exact ⟨fm2, List.mem_cons_of_mem _ hfm2, fi, hfi⟩

theorem notWs_of_toLower (c : Char) (hd : isWsChar (toLowerCh c) = false) :
    isWsChar c = false := by
  by_cases hc : isWsChar c = true
  · have hsix : c = ' ' ∨ c = '\t' ∨ c = '\n' ∨ c = '\r' ∨ c = '\x0b' ∨ c = '\x0c' := by
      simpa [isWsChar, or_assoc] using hc
    have hfix : toLowerCh c = c := by
      rcases hsix with rfl | rfl | rfl | rfl | rfl | rfl <;> decide
    rw [hfix] at hd
    rw [hd] at hc
    exact absurd hc (by simp)
  · simpa using hc

theorem jsTrim_of_toLower_kw (cap kw : List Char)
    (hkw : ∀ d ∈ kw, isWsChar d = false)
    (h : cap.map toLowerCh = kw) : jsTrim cap = cap := by
  apply jsTrim_all_noWs
  intro c hc
  have hm : toLowerCh c ∈ cap.map toLowerCh := List.mem_map_of_mem _ hc
  rw [h] at hm
  exact notWs_of_toLower c (hkw _ hm)

/-- Claim C8 (amended): every function entry's state mutability is
`view` or `pure` up to ASCII lower-casing (the capture keeps the
original case of the source, e.g. `VIEW`). -/
theorem claim_C8_amended (cleaned : List Char) (ctx : ParseContext)
    (f : FunctionInfo) (h : f ∈ (processViewAndPureFunctions cleaned ctx).1) :
    f.stateMutability.map toLowerCh = str "view" ∨
    f.stateMutability.map toLowerCh = str "pure" := by
  obtain ⟨fm, hfm, fi, hfi, hf⟩ :=
    processFuncsGo_mem ctx (scanFuncsF cleaned.length cleaned) f h
  have hmut : fi.1.stateMutability = jsTrim fm.mutKw :=
    processOneFuncMatch_mut fm ctx fi hfi
  have hlow := scanFuncsF_mut cleaned.length cleaned fm hfm
  rcases hlow with hlow | hlow
  · have htrim : jsTrim fm.mutKw = fm.mutKw :=
      jsTrim_of_toLower_kw fm.mutKw (str "view") (by decide) hlow
    exact Or.inl (by rw [← hf, hmut, htrim, hlow])
  · have htrim : jsTrim fm.mutKw = fm.mutKw :=
      jsTrim_of_toLower_kw fm.mutKw (str "pure") (by decide) hlow
    exact Or.inr (by rw [← hf, hmut, htrim, hlow])

set_option maxRecDepth 10000 in
/-- Witness for the amended C8 theorem at a concrete source. -/
theorem claim_C8_amended_witness :
    (⟨str "f", [], [⟨str "value", str "uint256"⟩], str "view"⟩ : FunctionInfo).stateMutability.map toLowerCh = str "view" ∨
    (⟨str "f", [], [⟨str "value", str "uint256"⟩], str "view"⟩ : FunctionInfo).stateMutability.map toLowerCh = str "pure" :=
  claim_C8_amended (str "function f() public view \x7b\x7d") ⟨[], []⟩
    ⟨str "f", [], [⟨str "value", str "uint256"⟩], str "view"⟩ (by decide)

end EvmTools
